import Mathlib

/-!
Verification development for the deepclaw voice-agent session bridge.

Shallow embedding of the core services:
* `SessionTimersM` — the dead-air/idle timer state machine
  (`app/services/session_timers.py`), modelled as an explicit transition
  system whose pending timer handles are tracked in a list so that the
  "at most one pending handle per kind" invariant is a real statement.
* `Registry` — the session registry and `should_unmute`
  (`app/services/session_registry.py`).
* `TwilioMedia` — the Twilio media codec with byte-accurate base64 and
  JSON encoding (`app/services/twilio_media.py`).
* `Proxy` — the request-supersession tracker, the streaming response
  loop and the byte-stream marker filter
  (`app/routers/openclaw_proxy.py`).
* `Injector` — the voice status injector
  (`app/services/voice_status_injector.py`).
* `Bridge` — the Deepgram-to-Twilio event dispatcher
  (`app/services/deepgram_agent.py`).
-/

namespace SessionTimersM

/-- Kinds of scheduled timer callbacks in `SessionTimers`. -/
inductive TKind where
  | reengage
  | respExit
  | idlePrompt
  | idleExit
deriving DecidableEq, Repr

/-- Timer configuration dictionary of `SessionTimers.__init__`; the fields
mirror the `config.get(...)` keys, with `postExitDelayMs` kept optional so
that the default of `POST_EXIT_DELAY_S = 3.0` seconds stays visible. -/
structure Cfg where
  enabled : Bool
  responseReengageMs : Nat
  responseExitMs : Nat
  idlePromptMs : Nat
  idleExitMs : Nat
  responseReengageMessage : String
  responseExitMessage : String
  idlePromptMessage : String
  idleExitMessage : String
  postExitDelayMs : Option Nat
deriving Repr, DecidableEq

/-- State of a `SessionTimers` instance.  The four `Option Nat` fields are
the `_response_reengage_handle` etc. slots (a handle is a numeric id);
`pending` is the event loop state: the set of scheduled, not yet fired,
not cancelled `call_later` handles together with which callback each one
runs.  `nextId` generates fresh handle ids. -/
structure TState where
  reengageH : Option Nat
  respExitH : Option Nat
  idlePromptH : Option Nat
  idleExitH : Option Nat
  pending : List (Nat × TKind)
  idlePrompted : Bool
  exiting : Bool
  paused : Bool
  nextId : Nat
deriving Repr, DecidableEq

/-- Observable side effects of a timer transition: `inject_message` calls
(successful or raising), `asyncio.sleep`, the `end_call` callback and the
`log` callback. -/
inductive Act where
  | injectMsg (m : String)
  | injectFailed (m : String)
  | sleepA (ms : Nat)
  | endCallA
  | logA
deriving DecidableEq, Repr

/-- Cancel one `asyncio.TimerHandle`: the scheduled callback with that id
is removed from the event loop. -/
def cancelHandle (h : Option Nat) (pend : List (Nat × TKind)) : List (Nat × TKind) :=
  match h with
  | none => pend
  | some i => pend.filter (fun p => p.1 ≠ i)

/-- Body of `SessionTimers._clear_response_timers`. -/
def clearResponseTimers (s : TState) : TState :=
  { s with pending := cancelHandle s.respExitH (cancelHandle s.reengageH s.pending),
           reengageH := none, respExitH := none }

/-- Body of `SessionTimers._clear_idle_timers`. -/
def clearIdleTimers (s : TState) : TState :=
  { s with pending := cancelHandle s.idleExitH (cancelHandle s.idlePromptH s.pending),
           idlePromptH := none, idleExitH := none }

/-- Handle slot that stores timers of a given kind. -/
def handleOf (s : TState) : TKind → Option Nat
  | .reengage => s.reengageH
  | .respExit => s.respExitH
  | .idlePrompt => s.idlePromptH
  | .idleExit => s.idleExitH

/-- `loop.call_later(..)` assigned into the handle slot for `k`: a fresh
handle id is scheduled on the loop and stored. -/
def scheduleTimer (k : TKind) (s : TState) : TState :=
  let s1 : TState :=
    { s with pending := (s.nextId, k) :: s.pending, nextId := s.nextId + 1 }
  match k with
  | .reengage => { s1 with reengageH := some s.nextId }
  | .respExit => { s1 with respExitH := some s.nextId }
  | .idlePrompt => { s1 with idlePromptH := some s.nextId }
  | .idleExit => { s1 with idleExitH := some s.nextId }

/-- Guard shared by the event handlers:
`if not self.enabled or self._exiting or self._paused: return`. -/
def guardBlocks (cfg : Cfg) (s : TState) : Bool :=
  !cfg.enabled || s.exiting || s.paused

/-- Helper for the `if .._ms > 0: loop.call_later(..)` pattern. -/
def schedIfPos (ms : Nat) (k : TKind) (s : TState) : TState :=
  if ms > 0 then scheduleTimer k s else s

/-- `SessionTimers.on_user_spoke`: clear both chains, reset the idle
guard, then start the response timers whose durations are positive. -/
def onUserSpoke (cfg : Cfg) (s : TState) : TState × List Act :=
  if guardBlocks cfg s then (s, [])
  else
    (schedIfPos cfg.responseExitMs TKind.respExit
      (schedIfPos cfg.responseReengageMs TKind.reengage
        { clearIdleTimers (clearResponseTimers s) with idlePrompted := false }),
     [.logA])

/-- `SessionTimers.on_agent_started_speaking`: clear both chains and
reset the idle guard. -/
def onAgentStartedSpeaking (cfg : Cfg) (s : TState) : TState × List Act :=
  if guardBlocks cfg s then (s, [])
  else
    ({ clearIdleTimers (clearResponseTimers s) with idlePrompted := false },
     if s.reengageH.isSome || s.respExitH.isSome || s.idlePromptH.isSome
        || s.idleExitH.isSome then [.logA] else [])

/-- `SessionTimers.on_user_started_speaking`: clear the idle chain only. -/
def onUserStartedSpeaking (cfg : Cfg) (s : TState) : TState × List Act :=
  if guardBlocks cfg s then (s, [])
  else
    ({ clearIdleTimers s with idlePrompted := false },
     if s.idlePromptH.isSome || s.idleExitH.isSome then [.logA] else [])

/-- `SessionTimers.on_agent_audio_done`: unless the idle-prompted guard
is set, clear the idle chain and start the idle-prompt timer when its
duration is positive. -/
def onAgentAudioDone (cfg : Cfg) (s : TState) : TState × List Act :=
  if guardBlocks cfg s then (s, [])
  else if s.idlePrompted then (s, [.logA])
  else if cfg.idlePromptMs > 0 then
    (scheduleTimer .idlePrompt (clearIdleTimers s), [.logA])
  else (clearIdleTimers s, [])

/-- Effective post-exit delay: `config.get("post_exit_delay_s", POST_EXIT_DELAY_S)`
in milliseconds. -/
def exitDelayMs (cfg : Cfg) : Nat := cfg.postExitDelayMs.getD 3000

/-- Body of `SessionTimers._fire_response_reengage` (already popped from
the loop).  `injOk` says whether the `inject_message` await succeeds; the
handler does not catch a failure, so the task just ends either way. -/
def fireReengage (cfg : Cfg) (injOk : Bool) (s : TState) : TState × List Act :=
  if s.exiting then (s, [])
  else
    (s, [Act.logA] ++
        (if cfg.responseReengageMessage ≠ "" then
          [if injOk then Act.injectMsg cfg.responseReengageMessage
           else Act.injectFailed cfg.responseReengageMessage]
         else []))

/-- Side effects of an exit handler body: log, inject the exit message
(the failure being caught and logged), sleep the post-exit delay, invoke
the `end_call` callback. -/
def exitActs (m : String) (injOk : Bool) (d : Nat) : List Act :=
  [Act.logA] ++
    (if m ≠ "" then [if injOk then Act.injectMsg m else Act.injectFailed m] else []) ++
    (if m ≠ "" && !injOk then [Act.logA] else []) ++
    [Act.sleepA d, Act.endCallA]

/-- Body of `SessionTimers._fire_response_exit`: set the terminal flag,
clear both chains, inject the exit message with failures caught and
logged, sleep the post-exit delay and call `end_call`. -/
def fireRespExit (cfg : Cfg) (injOk : Bool) (s : TState) : TState × List Act :=
  if s.exiting then (s, [])
  else
    (clearIdleTimers (clearResponseTimers { s with exiting := true }),
     exitActs cfg.responseExitMessage injOk (exitDelayMs cfg))

/-- Body of `SessionTimers._fire_idle_prompt`.  The inject is not wrapped
in try/except, so when it raises the idle-exit timer is not scheduled. -/
def fireIdlePrompt (cfg : Cfg) (injOk : Bool) (s : TState) : TState × List Act :=
  if s.exiting then (s, [])
  else if cfg.idlePromptMessage ≠ "" && !injOk then
    ({ s with idlePrompted := true }, [Act.logA, Act.injectFailed cfg.idlePromptMessage])
  else
    (schedIfPos cfg.idleExitMs TKind.idleExit { s with idlePrompted := true },
     [Act.logA] ++ (if cfg.idlePromptMessage ≠ "" then [Act.injectMsg cfg.idlePromptMessage] else []))

/-- Body of `SessionTimers._fire_idle_exit`. -/
def fireIdleExit (cfg : Cfg) (injOk : Bool) (s : TState) : TState × List Act :=
  if s.exiting then (s, [])
  else
    (clearResponseTimers (clearIdleTimers { s with exiting := true }),
     exitActs cfg.idleExitMessage injOk (exitDelayMs cfg))

/-- The event loop fires scheduled handle `id`: it is removed from the
loop and its callback body runs.  Firing an id that is not scheduled
(cancelled or already fired) is a no-op. -/
def fireTimer (cfg : Cfg) (id : Nat) (injOk : Bool) (s : TState) : TState × List Act :=
  match s.pending.find? (fun p => p.1 = id) with
  | none => (s, [])
  | some pk =>
      let s0 : TState := { s with pending := s.pending.filter (fun p => p.1 ≠ id) }
      match pk.2 with
      | .reengage => fireReengage cfg injOk s0
      | .respExit => fireRespExit cfg injOk s0
      | .idlePrompt => fireIdlePrompt cfg injOk s0
      | .idleExit => fireIdleExit cfg injOk s0

/-- `SessionTimers.pause`. -/
def pauseOp (s : TState) : TState × List Act :=
  (clearIdleTimers (clearResponseTimers { s with paused := true }), [.logA])

/-- `SessionTimers.resume`. -/
def resumeOp (s : TState) : TState × List Act :=
  ({ s with paused := false }, [.logA])

/-- `SessionTimers.clear_all`. -/
def clearAllOp (s : TState) : TState × List Act :=
  (clearIdleTimers (clearResponseTimers { s with exiting := true }), [.logA])

/-- Events that can hit a `SessionTimers` instance: its public methods
plus the event loop firing one of its scheduled timers. -/
inductive Ev where
  | userSpoke
  | agentStartedSpeaking
  | userStartedSpeaking
  | agentAudioDone
  | fire (id : Nat) (injOk : Bool)
  | pauseEv
  | resumeEv
  | clearAllEv
deriving DecidableEq, Repr

/-- One transition of the timer machine together with its side effects. -/
def step (cfg : Cfg) (s : TState) : Ev → TState × List Act
  | .userSpoke => onUserSpoke cfg s
  | .agentStartedSpeaking => onAgentStartedSpeaking cfg s
  | .userStartedSpeaking => onUserStartedSpeaking cfg s
  | .agentAudioDone => onAgentAudioDone cfg s
  | .fire id injOk => fireTimer cfg id injOk s
  | .pauseEv => pauseOp s
  | .resumeEv => resumeOp s
  | .clearAllEv => clearAllOp s

/-- State part of `step`. -/
def stepS (cfg : Cfg) (s : TState) (e : Ev) : TState := (step cfg s e).1

/-- State of a freshly constructed `SessionTimers`. -/
def init : TState :=
  { reengageH := none, respExitH := none, idlePromptH := none, idleExitH := none,
    pending := [], idlePrompted := false, exiting := false, paused := false, nextId := 0 }

/-- State after an arbitrary event sequence from the initial state. -/
def run (cfg : Cfg) (evs : List Ev) : TState := evs.foldl (stepS cfg) init

/-- Number of pending (scheduled, uncancelled, unfired) handles of a kind. -/
def kindCount (s : TState) (k : TKind) : Nat :=
  (s.pending.filter (fun p => p.2 = k)).length

/-- Inductive invariant of the timer machine: every pending handle is the
one stored in its kind slot, handle ids are fresh and distinct, the two
idle timers are never pending together, and nothing is pending once the
machine is exiting, paused or disabled. -/
structure Inv (cfg : Cfg) (s : TState) : Prop where
  handles : ∀ p ∈ s.pending, handleOf s p.2 = some p.1
  fresh : ∀ p ∈ s.pending, p.1 < s.nextId
  nodupIds : (s.pending.map Prod.fst).Nodup
  noIdlePair :
    ¬((∃ p ∈ s.pending, p.2 = TKind.idlePrompt) ∧ (∃ q ∈ s.pending, q.2 = TKind.idleExit))
  quiet : s.exiting = true ∨ s.paused = true ∨ cfg.enabled = false → s.pending = []

theorem mem_cancelHandle {p : Nat × TKind} {h : Option Nat} {l : List (Nat × TKind)} :
    p ∈ cancelHandle h l ↔ p ∈ l ∧ ∀ i, h = some i → p.1 ≠ i := by
  cases h with
  | none => simp [cancelHandle]
  | some i => simp [cancelHandle, List.mem_filter]

theorem mem_clearIdle_pending {s : TState} {p : Nat × TKind} :
    p ∈ (clearIdleTimers s).pending ↔
      p ∈ s.pending ∧ (∀ i, s.idlePromptH = some i → p.1 ≠ i) ∧
        (∀ i, s.idleExitH = some i → p.1 ≠ i) := by
  simp only [clearIdleTimers, mem_cancelHandle]
  tauto

theorem mem_clearResponse_pending {s : TState} {p : Nat × TKind} :
    p ∈ (clearResponseTimers s).pending ↔
      p ∈ s.pending ∧ (∀ i, s.reengageH = some i → p.1 ≠ i) ∧
        (∀ i, s.respExitH = some i → p.1 ≠ i) := by
  simp only [clearResponseTimers, mem_cancelHandle]
  tauto

/-- Clearing both chains empties the event loop, because (by the handle
invariant) every pending entry is referenced by one of the four slots. -/
theorem clearBoth_pending_nil (s : TState)
    (h : ∀ p ∈ s.pending, handleOf s p.2 = some p.1) :
    (clearIdleTimers (clearResponseTimers s)).pending = [] := by
  rw [List.eq_nil_iff_forall_not_mem]
  intro p hp
  rw [mem_clearIdle_pending] at hp
  obtain ⟨hp, hip, hie⟩ := hp
  rw [mem_clearResponse_pending] at hp
  obtain ⟨hp, hre, hrx⟩ := hp
  have hh := h p hp
  cases hk : p.2 with
  | reengage => rw [hk] at hh; exact hre p.1 hh rfl
  | respExit => rw [hk] at hh; exact hrx p.1 hh rfl
  | idlePrompt =>
      rw [hk] at hh
      exact hip p.1 (by simpa [clearResponseTimers] using hh) rfl
  | idleExit =>
      rw [hk] at hh
      exact hie p.1 (by simpa [clearResponseTimers] using hh) rfl

theorem guard_false {cfg : Cfg} {s : TState} (h : ¬guardBlocks cfg s = true) :
    cfg.enabled = true ∧ s.exiting = false ∧ s.paused = false := by
  simp [guardBlocks] at h
  tauto

/-- A state with an empty loop, quiet flags and any slot contents
satisfies the invariant. -/
theorem inv_of_pending_nil {cfg : Cfg} {s : TState}
    (hp : s.pending = []) : Inv cfg s := by
  refine ⟨?_, ?_, ?_, ?_, ?_⟩ <;> simp [hp]

theorem handleOf_ext {s t : TState} (h1 : t.reengageH = s.reengageH)
    (h2 : t.respExitH = s.respExitH) (h3 : t.idlePromptH = s.idlePromptH)
    (h4 : t.idleExitH = s.idleExitH) : ∀ k, handleOf t k = handleOf s k := by
  intro k
  cases k <;> simp [handleOf, h1, h2, h3, h4]

/-- Scheduling a single timer on a cleared, quiet machine keeps the
invariant. -/
theorem inv_sched1 {cfg : Cfg} {s : TState} (hp : s.pending = [])
    (hex : s.exiting = false) (hpa : s.paused = false) (hen : cfg.enabled = true)
    (k : TKind) : Inv cfg (scheduleTimer k s) := by
  cases k <;>
    (refine ⟨?_, ?_, ?_, ?_, ?_⟩ <;>
      simp [scheduleTimer, handleOf, hp, hex, hpa, hen])

/-- Scheduling the response pair on a cleared, quiet machine keeps the
invariant. -/
theorem inv_sched2 {cfg : Cfg} {s : TState} (hp : s.pending = [])
    (hex : s.exiting = false) (hpa : s.paused = false) (hen : cfg.enabled = true) :
    Inv cfg (scheduleTimer TKind.respExit (scheduleTimer TKind.reengage s)) := by
  refine ⟨?_, ?_, ?_, ?_, ?_⟩ <;>
    simp [scheduleTimer, handleOf, hp, hex, hpa, hen] <;> omega

theorem inv_onUserSpoke {cfg : Cfg} {s : TState} (h : Inv cfg s) :
    Inv cfg (onUserSpoke cfg s).1 := by
  unfold onUserSpoke
  split
  · exact h
  next hg =>
    obtain ⟨hen, hex, hpa⟩ := guard_false hg
    have hnil := clearBoth_pending_nil s h.handles
    show Inv cfg (schedIfPos cfg.responseExitMs TKind.respExit
      (schedIfPos cfg.responseReengageMs TKind.reengage
        { clearIdleTimers (clearResponseTimers s) with idlePrompted := false }))
    unfold schedIfPos
    by_cases hre : cfg.responseReengageMs > 0 <;>
      by_cases hrx : cfg.responseExitMs > 0 <;>
        simp only [hre, hrx, if_true, if_false, ite_true, ite_false]
    · exact inv_sched2
        (s := { clearIdleTimers (clearResponseTimers s) with idlePrompted := false })
        hnil hex hpa hen
    · exact inv_sched1
        (s := { clearIdleTimers (clearResponseTimers s) with idlePrompted := false })
        hnil hex hpa hen TKind.reengage
    · exact inv_sched1
        (s := { clearIdleTimers (clearResponseTimers s) with idlePrompted := false })
        hnil hex hpa hen TKind.respExit
    · exact inv_of_pending_nil hnil

theorem inv_onAgentStartedSpeaking {cfg : Cfg} {s : TState} (h : Inv cfg s) :
    Inv cfg (onAgentStartedSpeaking cfg s).1 := by
  unfold onAgentStartedSpeaking
  split
  · exact h
  · exact inv_of_pending_nil (clearBoth_pending_nil s h.handles)

theorem clearIdle_no_idle {s : TState}
    (h : ∀ p ∈ s.pending, handleOf s p.2 = some p.1) :
    ∀ p ∈ (clearIdleTimers s).pending,
      p.2 = TKind.reengage ∨ p.2 = TKind.respExit := by
  intro p hp
  rw [mem_clearIdle_pending] at hp
  obtain ⟨hmem, hip, hie⟩ := hp
  have hh := h p hmem
  cases hk : p.2 with
  | reengage => exact Or.inl rfl
  | respExit => exact Or.inr rfl
  | idlePrompt => rw [hk] at hh; exact absurd rfl (hip p.1 hh)
  | idleExit => rw [hk] at hh; exact absurd rfl (hie p.1 hh)

theorem inv_clearIdle {cfg : Cfg} {s : TState} (h : Inv cfg s) :
    Inv cfg (clearIdleTimers s) := by
  have hno := clearIdle_no_idle h.handles
  refine ⟨?_, ?_, ?_, ?_, ?_⟩
  · intro p hp
    have hmem := (mem_clearIdle_pending.mp hp).1
    have hh := h.handles p hmem
    rcases hno p hp with hk | hk <;>
      rw [hk] at hh ⊢ <;> simpa [handleOf, clearIdleTimers] using hh
  · intro p hp
    exact h.fresh p (mem_clearIdle_pending.mp hp).1
  · have hsub : (clearIdleTimers s).pending.Sublist s.pending := by
      simp only [clearIdleTimers, cancelHandle]
      cases s.idlePromptH <;> cases s.idleExitH <;> simp
    exact h.nodupIds.sublist (hsub.map Prod.fst)
  · rintro ⟨⟨p, hp, hk⟩, -⟩
    rcases hno p hp with h1 | h1 <;> simp [hk] at h1
  · intro hq
    have := h.quiet (by simpa [clearIdleTimers] using hq)
    simp [clearIdleTimers, this, cancelHandle]
    cases s.idlePromptH <;> cases s.idleExitH <;> simp

theorem inv_onUserStartedSpeaking {cfg : Cfg} {s : TState} (h : Inv cfg s) :
    Inv cfg (onUserStartedSpeaking cfg s).1 := by
  unfold onUserStartedSpeaking
  split
  · exact h
  · show Inv cfg { clearIdleTimers s with idlePrompted := false }
    have hci : Inv cfg (clearIdleTimers s) := inv_clearIdle h
    refine ⟨?_, hci.fresh, hci.nodupIds, hci.noIdlePair, hci.quiet⟩
    intro p hp
    obtain ⟨a, k⟩ := p
    have h2 := hci.handles ⟨a, k⟩ hp
    cases k <;> exact h2

/-- Scheduling an idle-chain timer on a machine whose loop holds only
response-chain entries keeps the invariant. -/
theorem inv_schedule_idleKind {cfg : Cfg} {s : TState} (h : Inv cfg s)
    (honly : ∀ p ∈ s.pending, p.2 = TKind.reengage ∨ p.2 = TKind.respExit)
    (hex : s.exiting = false) (hpa : s.paused = false) (hen : cfg.enabled = true)
    (k : TKind) (hk : k = TKind.idlePrompt ∨ k = TKind.idleExit) :
    Inv cfg (scheduleTimer k s) := by
  rcases hk with rfl | rfl <;>
  · refine ⟨?_, ?_, ?_, ?_, ?_⟩
    · intro p hp
      simp only [scheduleTimer, List.mem_cons] at hp
      rcases hp with rfl | hp
      · simp [scheduleTimer, handleOf]
      · have hh := h.handles p hp
        rcases honly p hp with hk2 | hk2 <;>
          rw [hk2] at hh ⊢ <;>
          simpa [scheduleTimer, handleOf] using hh
    · intro p hp
      simp only [scheduleTimer, List.mem_cons] at hp
      rcases hp with rfl | hp
      · simp [scheduleTimer]
      · have := h.fresh p hp
        simp only [scheduleTimer]
        omega
    · simp only [scheduleTimer, List.map_cons]
      refine List.Nodup.cons ?_ h.nodupIds
      intro hmem
      simp only [List.mem_map] at hmem
      obtain ⟨p, hp, hid⟩ := hmem
      have := h.fresh p hp
      omega
    · rintro ⟨⟨p, hp, hkp⟩, ⟨q, hq, hkq⟩⟩
      simp only [scheduleTimer, List.mem_cons] at hp hq
      rcases hp with rfl | hp
      · rcases hq with rfl | hq
        · simp at hkp hkq
        · rcases honly q hq with h1 | h1 <;> simp [hkq] at h1
      · rcases honly p hp with h1 | h1 <;> simp [hkp] at h1
    · intro hq
      exfalso
      have hc : s.exiting = true ∨ s.paused = true ∨ cfg.enabled = false := by
        simpa [scheduleTimer] using hq
      simp [hex, hpa, hen] at hc

/-- Flipping only the `idlePrompted` flag keeps the invariant. -/
theorem inv_setPrompted {cfg : Cfg} {s : TState} (h : Inv cfg s) (b : Bool) :
    Inv cfg { s with idlePrompted := b } := by
  refine ⟨?_, h.fresh, h.nodupIds, h.noIdlePair, fun hq => h.quiet hq⟩
  intro p hp
  obtain ⟨a, k⟩ := p
  have h2 := h.handles ⟨a, k⟩ hp
  cases k <;> exact h2

theorem inv_onAgentAudioDone {cfg : Cfg} {s : TState} (h : Inv cfg s) :
    Inv cfg (onAgentAudioDone cfg s).1 := by
  unfold onAgentAudioDone
  split
  · exact h
  next hg =>
    obtain ⟨hen, hex, hpa⟩ := guard_false hg
    split
    · exact h
    · have hci : Inv cfg (clearIdleTimers s) := inv_clearIdle h
      have hno := clearIdle_no_idle h.handles
      split
      · exact inv_schedule_idleKind hci hno hex hpa hen TKind.idlePrompt (Or.inl rfl)
      · exact hci

/-- Mirror of `clearBoth_pending_nil` for the composition order used by
`_fire_idle_exit`. -/
theorem clearBothR_pending_nil (s : TState)
    (h : ∀ p ∈ s.pending, handleOf s p.2 = some p.1) :
    (clearResponseTimers (clearIdleTimers s)).pending = [] := by
  rw [List.eq_nil_iff_forall_not_mem]
  intro p hp
  rw [mem_clearResponse_pending] at hp
  obtain ⟨hp, hre, hrx⟩ := hp
  rw [mem_clearIdle_pending] at hp
  obtain ⟨hp, hip, hie⟩ := hp
  have hh := h p hp
  cases hk : p.2 with
  | reengage =>
      rw [hk] at hh
      exact hre p.1 (by simpa [clearIdleTimers] using hh) rfl
  | respExit =>
      rw [hk] at hh
      exact hrx p.1 (by simpa [clearIdleTimers] using hh) rfl
  | idlePrompt => rw [hk] at hh; exact hip p.1 hh rfl
  | idleExit => rw [hk] at hh; exact hie p.1 hh rfl

theorem inv_fireReengage {cfg : Cfg} {s : TState} {injOk : Bool} (h : Inv cfg s) :
    Inv cfg (fireReengage cfg injOk s).1 := by
  unfold fireReengage
  split <;> exact h

theorem inv_fireRespExit {cfg : Cfg} {s : TState} {injOk : Bool} (h : Inv cfg s) :
    Inv cfg (fireRespExit cfg injOk s).1 := by
  unfold fireRespExit
  split
  · exact h
  · exact inv_of_pending_nil (clearBoth_pending_nil s h.handles)

theorem inv_fireIdleExit {cfg : Cfg} {s : TState} {injOk : Bool} (h : Inv cfg s) :
    Inv cfg (fireIdleExit cfg injOk s).1 := by
  unfold fireIdleExit
  split
  · exact h
  · exact inv_of_pending_nil (clearBothR_pending_nil s h.handles)

theorem inv_fireIdlePrompt {cfg : Cfg} {s : TState} {injOk : Bool} (h : Inv cfg s)
    (honly : ∀ p ∈ s.pending, p.2 = TKind.reengage ∨ p.2 = TKind.respExit)
    (hex : s.exiting = false) (hpa : s.paused = false) (hen : cfg.enabled = true) :
    Inv cfg (fireIdlePrompt cfg injOk s).1 := by
  unfold fireIdlePrompt
  split
  · exact h
  · split
    · exact inv_setPrompted h true
    · show Inv cfg (schedIfPos cfg.idleExitMs TKind.idleExit { s with idlePrompted := true })
      unfold schedIfPos
      split
      · exact inv_schedule_idleKind (s := { s with idlePrompted := true })
          (inv_setPrompted h true) honly hex hpa hen TKind.idleExit (Or.inr rfl)
      · exact inv_setPrompted h true

theorem inv_fireTimer {cfg : Cfg} {s : TState} {id : Nat} {injOk : Bool} (h : Inv cfg s) :
    Inv cfg (fireTimer cfg id injOk s).1 := by
  unfold fireTimer
  cases hf : s.pending.find? (fun p => p.1 = id) with
  | none => exact h
  | some pk =>
    have hpkmem : pk ∈ s.pending := List.mem_of_find?_eq_some hf
    have hpkid : pk.1 = id := by
      have := List.find?_some hf
      simpa using this
    have hne : s.pending ≠ [] := List.ne_nil_of_mem hpkmem
    have hex : s.exiting = false := by
      cases hx : s.exiting
      · rfl
      · exact absurd (h.quiet (Or.inl hx)) hne
    have hpa : s.paused = false := by
      cases hx : s.paused
      · rfl
      · exact absurd (h.quiet (Or.inr (Or.inl hx))) hne
    have hen : cfg.enabled = true := by
      cases hx : cfg.enabled
      · exact absurd (h.quiet (Or.inr (Or.inr hx))) hne
      · rfl
    have hmem0 : ∀ p : Nat × TKind,
        p ∈ (s.pending.filter (fun p => p.1 ≠ id)) ↔ p ∈ s.pending ∧ p.1 ≠ id := by
      intro p
      simp [List.mem_filter]
    have h0 : Inv cfg { s with pending := s.pending.filter (fun p => p.1 ≠ id) } := by
      refine ⟨?_, ?_, ?_, ?_, ?_⟩
      · intro p hp
        obtain ⟨a, k⟩ := p
        have h2 := h.handles ⟨a, k⟩ ((hmem0 ⟨a, k⟩).mp hp).1
        cases k <;> exact h2
      · intro p hp
        exact h.fresh p ((hmem0 p).mp hp).1
      · exact h.nodupIds.sublist ((List.filter_sublist _).map Prod.fst)
      · rintro ⟨⟨p, hp, hkp⟩, ⟨q, hq, hkq⟩⟩
        exact h.noIdlePair
          ⟨⟨p, ((hmem0 p).mp hp).1, hkp⟩, ⟨q, ((hmem0 q).mp hq).1, hkq⟩⟩
      · intro hq
        exfalso
        rcases hq with h1 | h1 | h1
        · exact absurd (show s.exiting = true from h1) (by simp [hex])
        · exact absurd (show s.paused = true from h1) (by simp [hpa])
        · exact absurd (show cfg.enabled = false from h1) (by simp [hen])
    dsimp only
    cases hpk2 : pk.2 with
    | reengage => exact inv_fireReengage h0
    | respExit => exact inv_fireRespExit h0
    | idleExit => exact inv_fireIdleExit h0
    | idlePrompt =>
        have hfield : s.idlePromptH = some pk.1 := by
          have h2 := h.handles pk hpkmem
          rw [hpk2] at h2
          exact h2
        have hnoIE : ¬∃ q ∈ s.pending, q.2 = TKind.idleExit := by
          intro hq
          exact h.noIdlePair ⟨⟨pk, hpkmem, hpk2⟩, hq⟩
        have honly : ∀ p ∈ (s.pending.filter (fun p => p.1 ≠ id)),
            p.2 = TKind.reengage ∨ p.2 = TKind.respExit := by
          intro p hp
          obtain ⟨hp1, hpne⟩ := (hmem0 p).mp hp
          cases hk : p.2 with
          | reengage => exact Or.inl rfl
          | respExit => exact Or.inr rfl
          | idlePrompt =>
              exfalso
              have h2 := h.handles p hp1
              rw [hk] at h2
              have h3 : s.idlePromptH = some p.1 := h2
              rw [hfield] at h3
              have h4 := Option.some.inj h3
              omega
          | idleExit => exact absurd ⟨p, hp1, hk⟩ hnoIE
        exact inv_fireIdlePrompt h0 honly hex hpa hen

theorem inv_pauseOp {cfg : Cfg} {s : TState} (h : Inv cfg s) : Inv cfg (pauseOp s).1 :=
  inv_of_pending_nil (clearBoth_pending_nil s h.handles)

theorem inv_clearAllOp {cfg : Cfg} {s : TState} (h : Inv cfg s) : Inv cfg (clearAllOp s).1 :=
  inv_of_pending_nil (clearBoth_pending_nil s h.handles)

theorem inv_resumeOp {cfg : Cfg} {s : TState} (h : Inv cfg s) : Inv cfg (resumeOp s).1 := by
  refine ⟨?_, h.fresh, h.nodupIds, h.noIdlePair, ?_⟩
  · intro p hp
    obtain ⟨a, k⟩ := p
    have h2 := h.handles ⟨a, k⟩ hp
    cases k <;> exact h2
  · intro hq
    refine h.quiet ?_
    rcases hq with h1 | h1 | h1
    · exact Or.inl h1
    · simp [resumeOp] at h1
    · exact Or.inr (Or.inr h1)

theorem inv_step {cfg : Cfg} {s : TState} {e : Ev} (h : Inv cfg s) :
    Inv cfg (stepS cfg s e) := by
  cases e with
  | userSpoke => exact inv_onUserSpoke h
  | agentStartedSpeaking => exact inv_onAgentStartedSpeaking h
  | userStartedSpeaking => exact inv_onUserStartedSpeaking h
  | agentAudioDone => exact inv_onAgentAudioDone h
  | fire id injOk => exact inv_fireTimer h
  | pauseEv => exact inv_pauseOp h
  | resumeEv => exact inv_resumeOp h
  | clearAllEv => exact inv_clearAllOp h

theorem inv_run (cfg : Cfg) (evs : List Ev) : Inv cfg (run cfg evs) := by
  suffices h : ∀ s, Inv cfg s → Inv cfg (evs.foldl (stepS cfg) s) from
    h init (inv_of_pending_nil rfl)
  induction evs with
  | nil => intro s hs; exact hs
  | cons e es ih => intro s hs; exact ih _ (inv_step hs)

theorem kindCount_le_one {cfg : Cfg} {s : TState} (h : Inv cfg s) (k : TKind) :
    kindCount s k ≤ 1 := by
  unfold kindCount
  cases hh : handleOf s k with
  | none =>
      have hnil : s.pending.filter (fun p => p.2 = k) = [] := by
        rw [List.filter_eq_nil_iff]
        intro p hp hpk
        have h2 := h.handles p hp
        rw [show p.2 = k by simpa using hpk] at h2
        rw [hh] at h2
        exact Option.noConfusion h2
      simp [hnil]
  | some v =>
      have hall : ∀ b ∈ (s.pending.filter (fun p => p.2 = k)).map Prod.fst, v = b := by
        intro b hb
        simp only [List.mem_map, List.mem_filter] at hb
        obtain ⟨p, ⟨hp, hpk⟩, rfl⟩ := hb
        have h2 := h.handles p hp
        rw [show p.2 = k by simpa using hpk] at h2
        rw [hh] at h2
        exact (Option.some.inj h2)
      calc (s.pending.filter (fun p => p.2 = k)).length
          = ((s.pending.filter (fun p => p.2 = k)).map Prod.fst).length := by
            rw [List.length_map]
        _ = ((s.pending.filter (fun p => p.2 = k)).map Prod.fst).count v :=
            (List.count_eq_length.mpr hall).symm
        _ ≤ (s.pending.map Prod.fst).count v :=
            List.Sublist.count_le ((List.filter_sublist _).map Prod.fst) v
        _ ≤ 1 := List.nodup_iff_count_le_one.mp h.nodupIds v

/-- C1: for every configuration and every sequence of `SessionTimers`
operations (speech events, timer firings, pause, resume, clear_all), the
reached state has at most one pending response-reengage handle, at most
one response-exit handle, at most one idle-prompt handle and at most one
idle-exit handle: every transition cancels any handle it supersedes
before scheduling a new one. -/
theorem timers_at_most_one_pending_per_kind (cfg : Cfg) (evs : List Ev) (k : TKind) :
    kindCount (run cfg evs) k ≤ 1 :=
  kindCount_le_one (inv_run cfg evs) k

/-- With distinct handle ids, firing handle `id` finds exactly the entry
that carries `id`. -/
theorem find_pending_of_nodup (l : List (Nat × TKind))
    (hnd : (l.map Prod.fst).Nodup) (id : Nat) (k : TKind) (hm : (id, k) ∈ l) :
    l.find? (fun p => p.1 = id) = some (id, k) := by
  induction l with
  | nil => simp at hm
  | cons a l ih =>
      simp only [List.map_cons, List.nodup_cons] at hnd
      rcases List.mem_cons.mp hm with rfl | hm2
      · simp [List.find?]
      · have hne : ¬a.1 = id := by
          intro he
          exact hnd.1 (he ▸ (List.mem_map_of_mem Prod.fst hm2))
        have hstep : (a :: l).find? (fun p => p.1 = id) = l.find? (fun p => p.1 = id) := by
          simp [List.find?, hne]
        rw [hstep]
        exact ih hnd.2 hm2

/-- Removing a fired handle from the loop keeps the invariant. -/
theorem inv_pop {cfg : Cfg} {s : TState} (h : Inv cfg s) (id : Nat) :
    Inv cfg { s with pending := s.pending.filter (fun p => p.1 ≠ id) } := by
  have hmem0 : ∀ p : Nat × TKind,
      p ∈ (s.pending.filter (fun p => p.1 ≠ id)) ↔ p ∈ s.pending ∧ p.1 ≠ id := by
    intro p
    simp [List.mem_filter]
  refine ⟨?_, ?_, ?_, ?_, ?_⟩
  · intro p hp
    obtain ⟨a, k⟩ := p
    have h2 := h.handles ⟨a, k⟩ ((hmem0 ⟨a, k⟩).mp hp).1
    cases k <;> exact h2
  · intro p hp
    exact h.fresh p ((hmem0 p).mp hp).1
  · exact h.nodupIds.sublist ((List.filter_sublist _).map Prod.fst)
  · rintro ⟨⟨p, hp, hkp⟩, ⟨q, hq, hkq⟩⟩
    exact h.noIdlePair
      ⟨⟨p, ((hmem0 p).mp hp).1, hkp⟩, ⟨q, ((hmem0 q).mp hq).1, hkq⟩⟩
  · intro hq
    have : s.pending = [] := h.quiet hq
    simp [this]

/-- Exit message configured for an exit-timer kind. -/
def exitMsgOf (cfg : Cfg) (k : TKind) : String :=
  match k with
  | .respExit => cfg.responseExitMessage
  | .idleExit => cfg.idleExitMessage
  | _ => ""

/-- C7: when a pending response-exit or idle-exit timer fires on a
reachable state, the machine sets the terminal exiting flag, cancels all
pending timers, emits the exit-handler side effects — log, injection of
the configured exit message (a raising injection being caught), a sleep
of the post-exit delay (3000 ms when not configured) and the `end_call`
callback — and the `end_call` callback is invoked also when the
injection raises. -/
theorem exit_timer_fire_ends_call (cfg : Cfg) (evs : List Ev) (id : Nat) (injOk : Bool)
    (k : TKind) (hk : k = TKind.respExit ∨ k = TKind.idleExit)
    (hmem : (id, k) ∈ (run cfg evs).pending) :
    (step cfg (run cfg evs) (Ev.fire id injOk)).1.exiting = true ∧
    (step cfg (run cfg evs) (Ev.fire id injOk)).1.pending = [] ∧
    (step cfg (run cfg evs) (Ev.fire id injOk)).2
      = exitActs (exitMsgOf cfg k) injOk (exitDelayMs cfg) ∧
    Act.endCallA ∈ (step cfg (run cfg evs) (Ev.fire id injOk)).2 ∧
    (exitMsgOf cfg k ≠ "" →
      (if injOk then Act.injectMsg (exitMsgOf cfg k)
       else Act.injectFailed (exitMsgOf cfg k)) ∈ (step cfg (run cfg evs) (Ev.fire id injOk)).2) ∧
    (cfg.postExitDelayMs = none →
      Act.sleepA 3000 ∈ (step cfg (run cfg evs) (Ev.fire id injOk)).2) := by
  have hInv := inv_run cfg evs
  have hfind := find_pending_of_nodup _ hInv.nodupIds id k hmem
  have hne : (run cfg evs).pending ≠ [] := List.ne_nil_of_mem hmem
  have hex : (run cfg evs).exiting = false := by
    cases hx : (run cfg evs).exiting
    · rfl
    · exact absurd (hInv.quiet (Or.inl hx)) hne
  have hpop := inv_pop hInv id
  have hh : ∀ p ∈ ({ run cfg evs with
        pending := (run cfg evs).pending.filter (fun p => p.1 ≠ id),
        exiting := true } : TState).pending,
      handleOf { run cfg evs with
        pending := (run cfg evs).pending.filter (fun p => p.1 ≠ id),
        exiting := true } p.2 = some p.1 := by
    intro p hp
    obtain ⟨a, kk⟩ := p
    have h2 := hpop.handles ⟨a, kk⟩ hp
    cases kk <;> exact h2
  rcases hk with rfl | rfl
  · have hstep : step cfg (run cfg evs) (Ev.fire id injOk)
        = fireRespExit cfg injOk
            { run cfg evs with
              pending := (run cfg evs).pending.filter (fun p => p.1 ≠ id) } := by
      show fireTimer cfg id injOk (run cfg evs) = _
      unfold fireTimer
      rw [hfind]
    rw [hstep]
    unfold fireRespExit
    rw [if_neg (by simp [hex])]
    refine ⟨by simp [clearIdleTimers, clearResponseTimers], ?_, rfl, ?_, ?_, ?_⟩
    · exact clearBoth_pending_nil _ hh
    · simp [exitActs]
    · intro hm
      simp only [exitMsgOf] at hm
      cases injOk <;> simp [exitActs, exitMsgOf, hm]
    · intro hd
      simp [exitActs, exitDelayMs, hd]
  · have hstep : step cfg (run cfg evs) (Ev.fire id injOk)
        = fireIdleExit cfg injOk
            { run cfg evs with
              pending := (run cfg evs).pending.filter (fun p => p.1 ≠ id) } := by
      show fireTimer cfg id injOk (run cfg evs) = _
      unfold fireTimer
      rw [hfind]
    rw [hstep]
    unfold fireIdleExit
    rw [if_neg (by simp [hex])]
    refine ⟨by simp [clearIdleTimers, clearResponseTimers], ?_, rfl, ?_, ?_, ?_⟩
    · exact clearBothR_pending_nil _ hh
    · simp [exitActs]
    · intro hm
      simp only [exitMsgOf] at hm
      cases injOk <;> simp [exitActs, exitMsgOf, hm]
    · intro hd
      simp [exitActs, exitDelayMs, hd]

/-- Configuration used to exercise the C7 theorem concretely. -/
def cfgC7 : Cfg :=
  { enabled := true, responseReengageMs := 0, responseExitMs := 5,
    idlePromptMs := 0, idleExitMs := 0,
    responseReengageMessage := "", responseExitMessage := "Goodbye",
    idlePromptMessage := "", idleExitMessage := "",
    postExitDelayMs := none }

/-- Witness for C7: after `on_user_spoke` schedules the response-exit
timer, firing it with a raising injection still ends the call after the
default 3000 ms delay. -/
theorem exit_timer_fire_ends_call_witness :
    ((0, TKind.respExit) ∈ (run cfgC7 [Ev.userSpoke]).pending) ∧
    (step cfgC7 (run cfgC7 [Ev.userSpoke]) (Ev.fire 0 false)).1.exiting = true ∧
    (step cfgC7 (run cfgC7 [Ev.userSpoke]) (Ev.fire 0 false)).1.pending = [] ∧
    Act.endCallA ∈ (step cfgC7 (run cfgC7 [Ev.userSpoke]) (Ev.fire 0 false)).2 ∧
    Act.sleepA 3000 ∈ (step cfgC7 (run cfgC7 [Ev.userSpoke]) (Ev.fire 0 false)).2 := by
  have h := exit_timer_fire_ends_call cfgC7 [Ev.userSpoke] 0 false TKind.respExit
    (Or.inl rfl) (by decide)
  exact ⟨by decide, h.1, h.2.1, h.2.2.2.1, h.2.2.2.2.2 rfl⟩

theorem guard_true {cfg : Cfg} {s : TState} (h : guardBlocks cfg s = true) :
    cfg.enabled = false ∨ s.exiting = true ∨ s.paused = true := by
  cases he : cfg.enabled <;> cases hx : s.exiting <;> cases hp : s.paused <;>
    simp [guardBlocks, he, hx, hp] at h ⊢

/-- C6 (amended): calling `on_agent_started_speaking` on any reachable
state leaves no pending callback of any kind (in particular no idle
prompt, however soon it was due); the already-prompted guard is reset
when the handler actually runs, that is when the machine is enabled, not
exiting and not paused — a paused or exiting machine ignores the call
and keeps the guard. -/
theorem agent_started_speaking_clears_idle (cfg : Cfg) (evs : List Ev) :
    (∀ k, kindCount (stepS cfg (run cfg evs) Ev.agentStartedSpeaking) k = 0) ∧
    (cfg.enabled = true → (run cfg evs).exiting = false → (run cfg evs).paused = false →
      (stepS cfg (run cfg evs) Ev.agentStartedSpeaking).idlePrompted = false) := by
  have hInv := inv_run cfg evs
  show (∀ k, kindCount (onAgentStartedSpeaking cfg (run cfg evs)).1 k = 0) ∧
    (cfg.enabled = true → (run cfg evs).exiting = false → (run cfg evs).paused = false →
      (onAgentStartedSpeaking cfg (run cfg evs)).1.idlePrompted = false)
  unfold onAgentStartedSpeaking
  split
  next hg =>
    have hnil : (run cfg evs).pending = [] := by
      rcases guard_true hg with h1 | h1 | h1
      · exact hInv.quiet (Or.inr (Or.inr h1))
      · exact hInv.quiet (Or.inl h1)
      · exact hInv.quiet (Or.inr (Or.inl h1))
    constructor
    · intro k
      simp [kindCount, hnil]
    · intro hen hex hpa
      exfalso
      simp [guardBlocks, hen, hex, hpa] at hg
  next hg =>
    have hnil := clearBoth_pending_nil (run cfg evs) hInv.handles
    constructor
    · intro k
      simp only [kindCount]
      have hp : ({ clearIdleTimers (clearResponseTimers (run cfg evs)) with
          idlePrompted := false } : TState).pending = [] := hnil
      rw [hp]
      rfl
    · intro _ _ _
      rfl

/-- Configuration with only the idle chain enabled and empty messages,
used to exercise C6 concretely. -/
def cfgC6 : Cfg :=
  { enabled := true, responseReengageMs := 0, responseExitMs := 0,
    idlePromptMs := 100, idleExitMs := 200,
    responseReengageMessage := "", responseExitMessage := "",
    idlePromptMessage := "", idleExitMessage := "",
    postExitDelayMs := none }

/-- Counterexample to C6 as stated: after the idle prompt has fired
(setting the guard) and the idle exit has fired (setting the terminal
flag), `on_agent_started_speaking` is a guarded no-op and does NOT reset
the already-prompted guard. -/
theorem agent_started_speaking_guard_not_reset :
    (stepS cfgC6 (run cfgC6 [Ev.agentAudioDone, Ev.fire 0 true, Ev.fire 1 true])
      Ev.agentStartedSpeaking).idlePrompted = true := by decide

/-- Witness for the amended C6 on a concrete run: an idle prompt
scheduled by `on_agent_audio_done` is cancelled by
`on_agent_started_speaking`, and the guard is reset. -/
theorem agent_started_speaking_clears_idle_witness :
    (∀ k, kindCount (stepS cfgC6 (run cfgC6 [Ev.agentAudioDone]) Ev.agentStartedSpeaking) k = 0) ∧
    (stepS cfgC6 (run cfgC6 [Ev.agentAudioDone]) Ev.agentStartedSpeaking).idlePrompted = false := by
  have h := agent_started_speaking_clears_idle cfgC6 [Ev.agentAudioDone]
  exact ⟨h.1, h.2 (by decide) (by decide) (by decide)⟩

end SessionTimersM

namespace Registry

/-- ASCII word character, the `\w` class used by the word-boundary
assertions in `should_unmute`. -/
def isWordChar (c : Char) : Bool :=
  (('a' ≤ c && c ≤ 'z') || ('A' ≤ c && c ≤ 'Z') || ('0' ≤ c && c ≤ '9') || c = '_')

/-- Python `str.lower()` on a text modelled as a character list. -/
def lowerS (s : List Char) : List Char := s.map Char.toLower

/-- Session data relevant to `should_unmute`: the mute flag and the
bound agent display name (`None` when not bound). -/
structure SessionData where
  muted : Bool
  agentName : Option (List Char)
deriving DecidableEq, Repr

/-- `_UNMUTE_KEYWORDS` from `session_registry.py`. -/
def unmuteKeywords : List (List Char) :=
  ["unmute".toList, "you can talk".toList, "start talking".toList, "i need you".toList]

/-- Whether the character at position `i` exists and is a word char. -/
def isWordAt (s : List Char) (i : Nat) : Bool :=
  match s.get? i with
  | some c => isWordChar c
  | none => false

/-- Whether a word character immediately precedes position `i`. -/
def wordBefore (s : List Char) (i : Nat) : Bool :=
  match i with
  | 0 => false
  | j + 1 => isWordAt s j

/-- The regex `\b` assertion at position `i`: the word-ness changes
between the previous character (text start counting as non-word) and the
character at `i` (text end counting as non-word). -/
def boundaryAt (s : List Char) (i : Nat) : Bool :=
  wordBefore s i != isWordAt s i

/-- `pat` occurs in `s` starting at position `i`. -/
def occursAt (pat s : List Char) (i : Nat) : Bool :=
  decide ((s.drop i).take pat.length = pat)

/-- `re.search` of the pattern `\b<escaped pat>\b` over `s`. -/
def regexWordSearch (pat s : List Char) : Bool :=
  (List.range (s.length + 1)).any fun i =>
    occursAt pat s i && boundaryAt s i && boundaryAt s (i + pat.length)

/-- Python substring containment `pat in s`. -/
def containsSub (pat s : List Char) : Bool :=
  (List.range (s.length + 1)).any fun i => occursAt pat s i

/-- `session_registry.should_unmute`: false for unknown keys; otherwise a
word-boundary match of the lowered agent name in the lowered text, or any
unmute keyword substring. -/
def should_unmute (reg : String → Option SessionData) (key : String)
    (text : List Char) : Bool :=
  match reg key with
  | none => false
  | some session =>
      (match session.agentName with
       | some n => !n.isEmpty && regexWordSearch (lowerS n) (lowerS text)
       | none => false)
      || unmuteKeywords.any (fun kw => containsSub kw (lowerS text))

/-- Spec-side notion for C4: the name occurs in the text as a whole-word
token, i.e. with no word character directly on either side. -/
def wholeWordToken (name text : List Char) : Prop :=
  ∃ pre post, text = pre ++ name ++ post ∧
    (pre = [] ∨ ∃ pre2 c, pre = pre2 ++ [c] ∧ isWordChar c = false) ∧
    (post = [] ∨ ∃ c post2, post = c :: post2 ∧ isWordChar c = false)

theorem occursAt_iff {pat s : List Char} {i : Nat} (hi : i ≤ s.length) :
    occursAt pat s i = true ↔ ∃ pre post, s = pre ++ pat ++ post ∧ pre.length = i := by
  unfold occursAt
  rw [decide_eq_true_eq]
  constructor
  · intro h
    have h2 : s = s.take i ++ ((s.drop i).take pat.length ++ (s.drop i).drop pat.length) := by
      rw [List.take_append_drop, List.take_append_drop]
    rw [h] at h2
    refine ⟨s.take i, (s.drop i).drop pat.length, ?_, by simp [List.length_take]; omega⟩
    conv_lhs => rw [h2]
    rw [List.append_assoc]
  · rintro ⟨pre, post, rfl, rfl⟩
    rw [List.append_assoc, List.drop_left, List.take_left]

theorem get?_append_len (A B : List Char) : (A ++ B).get? A.length = B.head? := by
  rw [List.get?_append_right (le_refl _), Nat.sub_self]
  cases B <;> rfl

theorem concat_inj_right {l l' : List Char} {c c' : Char}
    (h : l ++ [c] = l' ++ [c']) : c = c' := by
  have h2 := congrArg List.reverse h
  simp at h2
  exact h2.1

theorem boundary_start {pre name post : List Char} (hne : name ≠ [])
    (hw : ∀ c ∈ name, isWordChar c = true) :
    (boundaryAt (pre ++ name ++ post) pre.length = true ↔
      (pre = [] ∨ ∃ pre2 c, pre = pre2 ++ [c] ∧ isWordChar c = false)) := by
  have hword : isWordAt (pre ++ name ++ post) pre.length = true := by
    unfold isWordAt
    rw [List.append_assoc, get?_append_len]
    cases name with
    | nil => exact absurd rfl hne
    | cons c rest => simpa using hw c (by simp)
  unfold boundaryAt
  rw [hword]
  rcases List.eq_nil_or_concat pre with rfl | ⟨pre2, c, hpre⟩
  · simp [wordBefore]
  · rw [List.concat_eq_append] at hpre
    subst hpre
    have hlen : (pre2 ++ [c]).length = pre2.length + 1 := by simp
    rw [hlen]
    have hwb : wordBefore ((pre2 ++ [c]) ++ name ++ post) (pre2.length + 1)
        = isWordChar c := by
      show isWordAt ((pre2 ++ [c]) ++ name ++ post) pre2.length = isWordChar c
      unfold isWordAt
      rw [List.append_assoc, List.append_assoc, get?_append_len]
      rfl
    rw [hwb]
    constructor
    · intro h
      refine Or.inr ⟨pre2, c, rfl, ?_⟩
      cases hc : isWordChar c <;> simp [hc] at h ⊢
    · rintro (h | ⟨pre2x, cx, heq, hcx⟩)
      · exact absurd h (by simp)
      · rw [← concat_inj_right heq] at hcx
        simp [hcx]

theorem boundary_end {pre name post : List Char} (hne : name ≠ [])
    (hw : ∀ c ∈ name, isWordChar c = true) :
    (boundaryAt (pre ++ name ++ post) (pre.length + name.length) = true ↔
      (post = [] ∨ ∃ c post2, post = c :: post2 ∧ isWordChar c = false)) := by
  have hword : isWordAt (pre ++ name ++ post) (pre.length + name.length) = false
      ↔ (post = [] ∨ ∃ c post2, post = c :: post2 ∧ isWordChar c = false) := by
    unfold isWordAt
    have hp : pre.length + name.length = (pre ++ name).length := by simp
    rw [hp, get?_append_len]
    cases post with
    | nil => simp
    | cons c post2 =>
        simp only [List.head?]
        constructor
        · intro h
          exact Or.inr ⟨c, post2, rfl, h⟩
        · rintro (h | ⟨cx, post2x, heq, hcx⟩)
          · exact absurd h (by simp)
          · rw [List.cons.injEq] at heq
            rw [← heq.1] at hcx
            exact hcx
  have hwb : wordBefore (pre ++ name ++ post) (pre.length + name.length) = true := by
    rcases List.eq_nil_or_concat name with rfl | ⟨name2, d, hname⟩
    · exact absurd rfl hne
    · rw [List.concat_eq_append] at hname
      subst hname
      have hlen : pre.length + (name2 ++ [d]).length = (pre ++ name2).length + 1 := by
        simp; omega
      rw [hlen]
      show isWordAt (pre ++ (name2 ++ [d]) ++ post) (pre ++ name2).length = true
      unfold isWordAt
      have hre : pre ++ (name2 ++ [d]) ++ post = (pre ++ name2) ++ ([d] ++ post) := by
        simp
      rw [hre, get?_append_len]
      simpa using hw d (by simp)
  unfold boundaryAt
  rw [hwb]
  rw [← hword]
  cases isWordAt (pre ++ name ++ post) (pre.length + name.length) <;> simp

/-- With a nonempty name made of word characters, the regex search for
`\b<name>\b` succeeds exactly when the name occurs as a whole-word
token. -/
theorem regexWordSearch_iff {name text : List Char} (hne : name ≠ [])
    (hw : ∀ c ∈ name, isWordChar c = true) :
    regexWordSearch name text = true ↔ wholeWordToken name text := by
  unfold regexWordSearch
  rw [List.any_eq_true]
  constructor
  · rintro ⟨i, hir, h3⟩
    rw [Bool.and_eq_true, Bool.and_eq_true] at h3
    obtain ⟨⟨hocc, hb1⟩, hb2⟩ := h3
    have hi : i ≤ text.length := by
      simp [List.mem_range] at hir
      omega
    obtain ⟨pre, post, rfl, rfl⟩ := (occursAt_iff hi).mp hocc
    exact ⟨pre, post, rfl, (boundary_start hne hw).mp hb1,
      (boundary_end hne hw).mp hb2⟩
  · rintro ⟨pre, post, rfl, hpre, hpost⟩
    refine ⟨pre.length, ?_, ?_⟩
    · simp [List.mem_range]
      omega
    · rw [Bool.and_eq_true, Bool.and_eq_true]
      exact ⟨⟨(occursAt_iff (by simp)).mpr ⟨pre, post, rfl, rfl⟩,
        (boundary_start hne hw).mpr hpre⟩, (boundary_end hne hw).mpr hpost⟩

theorem containsSub_iff (pat s : List Char) :
    containsSub pat s = true ↔ ∃ pre post, s = pre ++ pat ++ post := by
  unfold containsSub
  rw [List.any_eq_true]
  constructor
  · rintro ⟨i, hir, hocc⟩
    have hi : i ≤ s.length := by
      simp [List.mem_range] at hir
      omega
    obtain ⟨pre, post, h1, -⟩ := (occursAt_iff hi).mp hocc
    exact ⟨pre, post, h1⟩
  · rintro ⟨pre, post, rfl⟩
    refine ⟨pre.length, ?_, (occursAt_iff (by simp)).mpr ⟨pre, post, rfl, rfl⟩⟩
    simp [List.mem_range]
    omega

/-- Registry with one session "k" whose bound agent name is "Wren". -/
def wrenReg : String → Option SessionData := fun k =>
  if k = "k" then some ⟨false, some "Wren".toList⟩ else none

/-- C4: `should_unmute` returns true iff the session key is registered
and either the bound agent name occurs in the text as a whole-word
case-insensitive token or one of the fixed keyword phrases occurs
case-insensitively (for any registry whose bound names are nonempty words);
for every unknown session key it returns false; with bound name "Wren",
"Lawrence" yields false (no substring match) and "Hey Wren" yields true. -/
theorem should_unmute_characterization :
    (∀ (reg : String → Option SessionData) (key : String) (text : List Char),
      (∀ sd, reg key = some sd → ∀ n, sd.agentName = some n →
        n ≠ [] ∧ ∀ c ∈ lowerS n, isWordChar c = true) →
      (should_unmute reg key text = true ↔
        ∃ sd, reg key = some sd ∧
          ((∃ n, sd.agentName = some n ∧ wholeWordToken (lowerS n) (lowerS text)) ∨
           (∃ kw ∈ unmuteKeywords, ∃ pre post, lowerS text = pre ++ kw ++ post)))) ∧
    (∀ (reg : String → Option SessionData) (key : String) (text : List Char),
      reg key = none → should_unmute reg key text = false) ∧
    should_unmute wrenReg "k" ("Lawrence".toList) = false ∧
    should_unmute wrenReg "k" ("Hey Wren".toList) = true := by
  refine ⟨?_, ?_, by decide, by decide⟩
  · intro reg key text hname
    unfold should_unmute
    cases hreg : reg key with
    | none => simp
    | some sd =>
        rw [Bool.or_eq_true]
        constructor
        · rintro (hn | hkw)
          · cases hag : sd.agentName with
            | none => rw [hag] at hn; simp at hn
            | some n =>
                rw [hag] at hn
                rw [Bool.and_eq_true] at hn
                obtain ⟨hne', hsearch⟩ := hn
                obtain ⟨hne, hw⟩ := hname sd hreg n hag
                have hlne : lowerS n ≠ [] := by
                  simp [lowerS]
                  exact hne
                exact ⟨sd, rfl, Or.inl ⟨n, hag,
                  (regexWordSearch_iff hlne hw).mp hsearch⟩⟩
          · rw [List.any_eq_true] at hkw
            obtain ⟨kw, hkwmem, hc⟩ := hkw
            obtain ⟨pre, post, hdec⟩ := (containsSub_iff kw (lowerS text)).mp hc
            exact ⟨sd, rfl, Or.inr ⟨kw, hkwmem, pre, post, hdec⟩⟩
        · rintro ⟨sd2, hsd2, hcase⟩
          have hsdeq : sd2 = sd := by
            injection hsd2 with h
            exact h.symm
          subst hsdeq
          rcases hcase with ⟨n, hag, hww⟩ | ⟨kw, hkwmem, pre, post, hdec⟩
          · apply Or.inl
            rw [hag, Bool.and_eq_true]
            obtain ⟨hne, hw⟩ := hname sd2 hreg n hag
            have hlne : lowerS n ≠ [] := by
              simp [lowerS]
              exact hne
            refine ⟨by simpa using hne, (regexWordSearch_iff hlne hw).mpr hww⟩
          · apply Or.inr
            rw [List.any_eq_true]
            exact ⟨kw, hkwmem, (containsSub_iff kw (lowerS text)).mpr ⟨pre, post, hdec⟩⟩
  · intro reg key text hnone
    unfold should_unmute
    rw [hnone]

/-- Witness for C4: the unknown-key case and the "Hey Wren" instance of
the characterization. -/
theorem should_unmute_characterization_witness :
    should_unmute (fun _ => none) "x" ("unmute".toList) = false ∧
    (should_unmute wrenReg "k" ("Hey Wren".toList) = true ↔
      ∃ sd, wrenReg "k" = some sd ∧
        ((∃ n, sd.agentName = some n ∧
            wholeWordToken (lowerS n) (lowerS ("Hey Wren".toList))) ∨
         (∃ kw ∈ unmuteKeywords, ∃ pre post,
            lowerS ("Hey Wren".toList) = pre ++ kw ++ post))) := by
  refine ⟨should_unmute_characterization.2.1 _ "x" _ rfl,
    should_unmute_characterization.1 wrenReg "k" _ ?_⟩
  intro sd hsd n hn
  have hsd2 : sd = ⟨false, some "Wren".toList⟩ := by
    have : some (⟨false, some "Wren".toList⟩ : SessionData) = some sd := by
      simpa [wrenReg] using hsd
    injection this with h
    exact h.symm
  subst hsd2
  have hn2 : n = "Wren".toList := by
    have : some ("Wren".toList) = some n := hn
    injection this with h
    exact h.symm
  subst hn2
  exact ⟨by decide, by decide⟩

end Registry

namespace Proxy

/-- `_InflightEntry` of `openclaw_proxy.py`: the sequence number and the
identity of the `asyncio.Event` used as cancellation signal. -/
structure InflightEntry where
  seq : Nat
  cancelId : Nat
deriving DecidableEq, Repr

/-- State of the supersession tracker: the `_inflight` map, which event
objects have been `.set()`, and a fresh-id source for newly created
events. -/
structure TrackerState where
  inflight : String → Option InflightEntry
  eventSet : Nat → Bool
  nextEventId : Nat

/-- The supersession register step of `proxy_chat_completions` (run when
the request carries a session key with a live agent connection): create a
fresh cancellation event; if an entry exists for the key, set its event
and use its sequence plus one, else use sequence 1; store the new entry. -/
def registerInflight (st : TrackerState) (key : String) : TrackerState :=
  match st.inflight key with
  | some old =>
      { inflight := fun k =>
          if k = key then some ⟨old.seq + 1, st.nextEventId⟩ else st.inflight k,
        eventSet := fun e => if e = old.cancelId then true else st.eventSet e,
        nextEventId := st.nextEventId + 1 }
  | none =>
      { inflight := fun k =>
          if k = key then some ⟨1, st.nextEventId⟩ else st.inflight k,
        eventSet := st.eventSet,
        nextEventId := st.nextEventId + 1 }

/-- C2: a new text-completion request for a key with a live agent
connection sets the previous entry's cancellation signal and stores a new
entry whose sequence number is exactly one more than the old (hence
strictly larger); with no previous entry it stores sequence number 1. -/
theorem register_supersedes (st : TrackerState) (key : String) :
    (∀ old, st.inflight key = some old →
      (registerInflight st key).inflight key = some ⟨old.seq + 1, st.nextEventId⟩ ∧
      (registerInflight st key).eventSet old.cancelId = true ∧
      old.seq < old.seq + 1) ∧
    (st.inflight key = none →
      (registerInflight st key).inflight key = some ⟨1, st.nextEventId⟩) := by
  constructor
  · intro old hold
    unfold registerInflight
    rw [hold]
    exact ⟨by simp, by simp, Nat.lt_succ_self _⟩
  · intro hnone
    unfold registerInflight
    rw [hnone]
    simp

/-- Concrete tracker with one in-flight entry for key "s". -/
def tracker0 : TrackerState :=
  { inflight := fun k => if k = "s" then some ⟨2, 5⟩ else none,
    eventSet := fun _ => false,
    nextEventId := 9 }

/-- Witness for C2 on a concrete tracker state: superseding key "s"
(entry seq 2, event 5) sets event 5 and stores seq 3; key "t" is fresh
and gets seq 1. -/
theorem register_supersedes_witness :
    (registerInflight tracker0 "s").inflight "s" = some ⟨3, 9⟩ ∧
    (registerInflight tracker0 "s").eventSet 5 = true ∧
    (registerInflight tracker0 "t").inflight "t" = some ⟨1, 9⟩ := by
  have h1 := (register_supersedes tracker0 "s").1 ⟨2, 5⟩ rfl
  have h2 := (register_supersedes tracker0 "t").2 rfl
  exact ⟨h1.1, h1.2.1, h2⟩

/-- The byte pattern searched by `_chunk_has_content`. -/
def contentPat : List Char := "\"content\":\"".toList

/-- First index at which `pat` occurs in `s` (Python `bytes.find`,
`None` for -1). -/
def findSub (pat s : List Char) : Option Nat :=
  (List.range (s.length + 1)).find? (fun i => Registry.occursAt pat s i)

/-- `_chunk_has_content`: the chunk contains `"content":"` followed by at
least one character that is not a closing quote. -/
def chunkHasContent (chunk : List Char) : Bool :=
  match findSub contentPat chunk with
  | none => false
  | some idx =>
      decide (idx + contentPat.length < chunk.length) &&
        decide (chunk.get? (idx + contentPat.length) ≠ some '"')

/-- The loop of `stream_body` restricted to its supersession logic: each
input is a chunk paired with whether the cancellation signal is observed
set at that iteration; the loop breaks when the signal is set before any
content chunk has been seen, records content, and yields the chunk. -/
def streamStep : Bool → List (List Char × Bool) → List (List Char)
  | _, [] => []
  | started, (c, cancelSet) :: rest =>
      if cancelSet && !started then []
      else c :: streamStep (started || chunkHasContent c) rest

/-- `stream_body` starts with `content_started = False`. -/
def runStream (chunks : List (List Char × Bool)) : List (List Char) :=
  streamStep false chunks

/-- The loop aborts at iteration `i` when the signal is observed set
there and no earlier chunk carried content. -/
def abortsAt (chunks : List (List Char × Bool)) (i : Nat) : Prop :=
  (∃ c, chunks.get? i = some c ∧ c.2 = true) ∧
  (∀ j, j < i → ∀ c, chunks.get? j = some c → chunkHasContent c.1 = false)

/-- The `finally` cleanup of `stream_body`: delete the in-flight entry
for the key only when it still carries this stream's sequence number. -/
def cleanupInflight (m : String → Option InflightEntry) (key : String)
    (myseq : Nat) : String → Option InflightEntry :=
  match m key with
  | some cur =>
      if cur.seq = myseq then (fun k => if k = key then none else m k) else m
  | none => m

theorem streamStep_started (l : List (List Char × Bool)) :
    streamStep true l = l.map Prod.fst := by
  induction l with
  | nil => rfl
  | cons c rest ih =>
      obtain ⟨c1, c2⟩ := c
      simp [streamStep, ih]

theorem abortsAt_cons {c : List Char × Bool} {rest : List (List Char × Bool)} {j : Nat} :
    abortsAt (c :: rest) (j + 1) ↔ (chunkHasContent c.1 = false ∧ abortsAt rest j) := by
  unfold abortsAt
  constructor
  · rintro ⟨⟨d, hd, hd2⟩, hnc⟩
    refine ⟨hnc 0 (Nat.succ_pos j) c rfl, ⟨d, hd, hd2⟩, ?_⟩
    intro j2 hj2 d2 hd2m
    exact hnc (j2 + 1) (Nat.succ_lt_succ hj2) d2 hd2m
  · rintro ⟨hc, ⟨d, hd, hd2⟩, hnc⟩
    refine ⟨⟨d, hd, hd2⟩, ?_⟩
    intro j2 hj2 d2 hd2m
    cases j2 with
    | zero =>
        have : d2 = c := by
          injection hd2m with h
          exact h.symm
        rw [this]
        exact hc
    | succ j3 => exact hnc j3 (Nat.lt_of_succ_lt_succ hj2) d2 hd2m

/-- C3: the streaming loop yields a prefix of the chunks, cut exactly at
the first iteration where the cancellation signal is observed before any
real content has been produced (once content has started the signal no
longer aborts the stream); and the cleanup removes the in-flight entry
for the key only when that entry still carries this stream's own
sequence number, so a superseded stream never removes a newer request's
entry. -/
theorem stream_abort_and_cleanup :
    (∀ chunks : List (List Char × Bool), ∃ k, k ≤ chunks.length ∧
      runStream chunks = (chunks.take k).map Prod.fst ∧
      (∀ i, i < k → ¬abortsAt chunks i) ∧
      (k < chunks.length → abortsAt chunks k)) ∧
    (∀ (m : String → Option InflightEntry) (key : String) (myseq : Nat)
        (e : InflightEntry), m key = some e → e.seq ≠ myseq →
      cleanupInflight m key myseq = m) ∧
    (∀ (m : String → Option InflightEntry) (key : String) (myseq : Nat)
        (e : InflightEntry), m key = some e → e.seq = myseq →
      (cleanupInflight m key myseq) key = none) := by
  refine ⟨?_, ?_, ?_⟩
  · intro chunks
    induction chunks with
    | nil =>
        exact ⟨0, Nat.le_refl 0, rfl,
          fun i hi => absurd hi (Nat.not_lt_zero i),
          fun h => absurd h (by simp)⟩
    | cons c rest ih =>
        obtain ⟨c1, c2⟩ := c
        cases hc2 : c2 with
        | true =>
            refine ⟨0, Nat.zero_le _, ?_, fun i hi => absurd hi (Nat.not_lt_zero i), ?_⟩
            · simp [runStream, streamStep]
            · intro _
              exact ⟨⟨(c1, true), rfl, rfl⟩,
                fun j hj => absurd hj (Nat.not_lt_zero j)⟩
        | false =>
            cases hcc : chunkHasContent c1 with
            | true =>
                refine ⟨rest.length + 1, by simp, ?_, ?_, by simp⟩
                · show streamStep false ((c1, false) :: rest) = _
                  simp [streamStep, hcc, streamStep_started, List.take_of_length_le]
                · intro i hi habort
                  cases i with
                  | zero =>
                      obtain ⟨⟨d, hd, hd2⟩, -⟩ := habort
                      injection hd with h
                      simp [← h] at hd2
                  | succ j =>
                      obtain ⟨hcfalse, -⟩ := abortsAt_cons.mp habort
                      simp [hcc] at hcfalse
            | false =>
                obtain ⟨k, hk, hout, hno, hab⟩ := ih
                refine ⟨k + 1, by simp; omega, ?_, ?_, ?_⟩
                · show streamStep false ((c1, false) :: rest) = _
                  simp [streamStep, hcc]
                  rw [← List.map_take]
                  exact hout
                · intro i hi habort
                  cases i with
                  | zero => obtain ⟨⟨d, hd, hd2⟩, -⟩ := habort; injection hd with h; simp [← h] at hd2
                  | succ j =>
                      obtain ⟨-, habort2⟩ := abortsAt_cons.mp habort
                      exact hno j (Nat.lt_of_succ_lt_succ hi) habort2
                · intro hlt
                  have hlt2 : k < rest.length := by
                    simp at hlt
                    omega
                  exact abortsAt_cons.mpr ⟨hcc, hab hlt2⟩
  · intro m key myseq e he hne
    simp [cleanupInflight, he, hne]
  · intro m key myseq e he hseq
    simp [cleanupInflight, he, hseq]

/-- A two-chunk stream whose second iteration observes the signal. -/
def chunksC3 : List (List Char × Bool) :=
  [("data: x".toList, false), ("data: y".toList, true)]

/-- Inflight map used to exercise the C3 cleanup. -/
def mC3 : String → Option InflightEntry := fun k =>
  if k = "s" then some ⟨2, 5⟩ else none

/-- Witness for C3: the abort characterization on a concrete stream, and
the cleanup on a concrete map keeping a newer entry (seq 2 vs own 1) but
removing its own (seq 2). -/
theorem stream_abort_and_cleanup_witness :
    (∃ k, k ≤ chunksC3.length ∧
      runStream chunksC3 = (chunksC3.take k).map Prod.fst ∧
      (∀ i, i < k → ¬abortsAt chunksC3 i) ∧
      (k < chunksC3.length → abortsAt chunksC3 k)) ∧
    cleanupInflight mC3 "s" 1 = mC3 ∧
    (cleanupInflight mC3 "s" 2) "s" = none :=
  ⟨stream_abort_and_cleanup.1 chunksC3,
   stream_abort_and_cleanup.2.1 mC3 "s" 1 ⟨2, 5⟩ rfl (by decide),
   stream_abort_and_cleanup.2.2 mC3 "s" 2 ⟨2, 5⟩ rfl rfl⟩

end Proxy

namespace Injector

/-- `TOOL_PHRASES` of `voice_status_injector.py`, in dict insertion
order. -/
def toolPhrases : List (String × String) :=
  [("web_search", "Let me search for that."),
   ("read_file", "Checking some results."),
   ("memory_search", "Let me check my notes."),
   ("calendar_events", "Checking your calendar."),
   ("sessions_spawn", "Kicking off a background task."),
   ("send_sms", "Sending a text message."),
   ("make_call", "Making a call.")]

/-- `_DEFAULT_PHRASE`. -/
def defaultPhrase : String := "Still working on that."

/-- Python `sub in s` on strings. -/
def strContains (sub s : String) : Bool :=
  Registry.containsSub sub.toList s.toList

/-- `get_tool_phrase`: exact table lookup, else first table key that is a
substring of the tool name, else the generic default. -/
def get_tool_phrase (toolName : String) : String :=
  match toolPhrases.find? (fun kv => kv.1 = toolName) with
  | some kv => kv.2
  | none =>
      match toolPhrases.find? (fun kv => strContains kv.1 toolName) with
      | some kv => kv.2
      | none => defaultPhrase

/-- `INITIAL_HOLDOFF_SECONDS` in milliseconds. -/
def holdoffMs : Nat := 3500

/-- `COOLDOWN_SECONDS` in milliseconds. -/
def cooldownMs : Nat := 7000

/-- State of a `VoiceStatusInjector`: the timing fields, the two guard
flags, the `_pending_inject` handle slot and the event loop entries
`(id, delay, phrase)` scheduled and not yet fired or cancelled.  Times
are `time.monotonic()` values in milliseconds. -/
structure IState where
  lastInjectTime : Nat
  requestStartedAt : Nat
  contentStreaming : Bool
  stopped : Bool
  pendingField : Option Nat
  pendingList : List (Nat × Nat × String)
  nextId : Nat
deriving DecidableEq, Repr

/-- `_cancel_pending`. -/
def cancelPending (s : IState) : IState :=
  match s.pendingField with
  | none => s
  | some i =>
      { s with pendingList := s.pendingList.filter (fun p => p.1 ≠ i),
               pendingField := none }

/-- The delay computed by `_schedule_inject`:
`max(holdoff_remaining, cooldown_remaining)`, where each remaining time
is `max(0, deadline - now)` — truncated subtraction on `Nat`. -/
def injectDelay (s : IState) (now : Nat) : Nat :=
  max ((s.requestStartedAt + holdoffMs) - now) ((s.lastInjectTime + cooldownMs) - now)

/-- `_schedule_inject`: no-op when content is streaming or the injector
is stopped; otherwise cancel any pending injection (latest tool wins) and
schedule the looked-up phrase after the computed delay. -/
def scheduleInject (s : IState) (toolName : String) (now : Nat) : IState :=
  if s.contentStreaming || s.stopped then s
  else
    let s1 := cancelPending s
    { s1 with
        pendingList := (s1.nextId, injectDelay s now, get_tool_phrase toolName) :: s1.pendingList,
        pendingField := some s1.nextId,
        nextId := s1.nextId + 1 }

/-- `_do_inject` fired from the loop for handle `id`: clear the slot,
bail out when stopped, streaming or muted, else record the injection
time and emit the phrase. -/
def doInjectFire (s : IState) (id : Nat) (now : Nat) (muted : Bool) :
    IState × Option String :=
  match s.pendingList.find? (fun p => p.1 = id) with
  | none => (s, none)
  | some e =>
      let s0 : IState :=
        { s with pendingList := s.pendingList.filter (fun p => p.1 ≠ id),
                 pendingField := none }
      if s0.stopped || s0.contentStreaming then (s0, none)
      else if muted then (s0, none)
      else ({ s0 with lastInjectTime := now }, some e.2.2)

/-- Events hitting one injector: a gateway tool-start, a chat delta, the
per-turn `reset`, `stop`, and the loop firing a scheduled injection. -/
inductive IEv where
  | toolStart (name : String) (now : Nat)
  | chatDelta
  | resetEv (now : Nat)
  | stopEv
  | fireEv (id : Nat) (now : Nat) (muted : Bool)

/-- One injector transition. -/
def istep (s : IState) : IEv → IState
  | .toolStart name now => scheduleInject s name now
  | .chatDelta =>
      if s.stopped then s
      else if s.contentStreaming then s
      else { cancelPending s with contentStreaming := true }
  | .resetEv now =>
      { cancelPending s with contentStreaming := false, requestStartedAt := now }
  | .stopEv => { cancelPending s with stopped := true }
  | .fireEv id now muted => (doInjectFire s id now muted).1

/-- Freshly constructed injector. -/
def iinit : IState :=
  { lastInjectTime := 0, requestStartedAt := 0, contentStreaming := false,
    stopped := false, pendingField := none, pendingList := [], nextId := 0 }

/-- Injector state after an event sequence. -/
def runI (evs : List IEv) : IState := evs.foldl istep iinit

/-- Invariant: the loop holds at most the one entry referenced by the
`_pending_inject` slot, with a fresh id. -/
def InvI (s : IState) : Prop :=
  (s.pendingField = none → s.pendingList = []) ∧
  (∀ i, s.pendingField = some i →
    (s.pendingList = [] ∨ ∃ d ph, s.pendingList = [(i, d, ph)])) ∧
  (∀ p ∈ s.pendingList, p.1 < s.nextId)

theorem cancelPending_nil {s : IState} (h : InvI s) :
    (cancelPending s).pendingList = [] ∧ (cancelPending s).pendingField = none ∧
    (cancelPending s).nextId = s.nextId := by
  obtain ⟨h1, h2, h3⟩ := h
  unfold cancelPending
  cases hf : s.pendingField with
  | none => exact ⟨h1 hf, hf, rfl⟩
  | some i =>
      refine ⟨?_, rfl, rfl⟩
      rcases h2 i hf with hnil | ⟨d, ph, hone⟩
      · simp [hnil]
      · simp [hone]

/-- A state with nothing scheduled satisfies the injector invariant. -/
theorem invI_of_nil {s : IState} (h : s.pendingList = []) : InvI s :=
  ⟨fun _ => h, fun _ _ => Or.inl h,
   fun p hp => by rw [h] at hp; exact absurd hp (List.not_mem_nil p)⟩

theorem invI_istep {s : IState} (h : InvI s) (e : IEv) : InvI (istep s e) := by
  cases e with
  | toolStart name now =>
      show InvI (scheduleInject s name now)
      unfold scheduleInject
      split
      · exact h
      · obtain ⟨hnil, hnone, hnext⟩ := cancelPending_nil h
        refine ⟨fun hc => absurd hc (by simp), ?_, ?_⟩
        · intro i hi
          have hi2 : some ((cancelPending s).nextId) = some i := hi
          injection hi2 with hi3
          refine Or.inr ⟨injectDelay s now, get_tool_phrase name, ?_⟩
          show ((cancelPending s).nextId, injectDelay s now, get_tool_phrase name) ::
              (cancelPending s).pendingList = [(i, injectDelay s now, get_tool_phrase name)]
          rw [hnil, hi3]
        · intro p hp
          have hp2 : p ∈ ((cancelPending s).nextId, injectDelay s now, get_tool_phrase name) ::
              (cancelPending s).pendingList := hp
          rw [hnil] at hp2
          have hp3 : p = ((cancelPending s).nextId, injectDelay s now, get_tool_phrase name) := by
            simpa using hp2
          show p.1 < (cancelPending s).nextId + 1
          rw [hp3]
          exact Nat.lt_succ_self _
  | chatDelta =>
      show InvI (if s.stopped then s else if s.contentStreaming then s
        else { cancelPending s with contentStreaming := true })
      split
      · exact h
      · split
        · exact h
        · exact invI_of_nil (cancelPending_nil h).1
  | resetEv now =>
      exact invI_of_nil (cancelPending_nil h).1
  | stopEv =>
      exact invI_of_nil (cancelPending_nil h).1
  | fireEv id now muted =>
      show InvI (doInjectFire s id now muted).1
      unfold doInjectFire
      cases hf : s.pendingList.find? (fun p => p.1 = id) with
      | none => exact h
      | some e =>
          have hmem := List.mem_of_find?_eq_some hf
          have hid : e.1 = id := by
            have := List.find?_some hf
            simpa using this
          have hnil : s.pendingList.filter (fun p => p.1 ≠ id) = [] := by
            cases hpf : s.pendingField with
            | none =>
                rw [h.1 hpf] at hmem
                exact absurd hmem (List.not_mem_nil e)
            | some i =>
                rcases h.2.1 i hpf with hn | ⟨d, ph, hone⟩
                · rw [hn] at hmem
                  exact absurd hmem (List.not_mem_nil e)
                · have hmem2 : e = (i, d, ph) := by
                    rw [hone] at hmem
                    simpa using hmem
                  have hii : i = id := by
                    rw [hmem2] at hid
                    exact hid
                  rw [hone]
                  simp [hii]
          dsimp only
          split
          · exact invI_of_nil hnil
          · split
            · exact invI_of_nil hnil
            · exact invI_of_nil hnil

theorem invI_runI (evs : List IEv) : InvI (runI evs) := by
  suffices h : ∀ s, InvI s → InvI (evs.foldl istep s) from
    h iinit ⟨fun _ => rfl, fun i hi => Option.noConfusion hi, fun p hp => by simp [iinit] at hp⟩
  induction evs with
  | nil => intro s hs; exact hs
  | cons e es ih => intro s hs; exact ih _ (invI_istep hs e)

theorem cancelPending_nextId (s : IState) : (cancelPending s).nextId = s.nextId := by
  unfold cancelPending
  cases s.pendingField <;> rfl

theorem find?_key_of_nodup {l : List (String × String)}
    (hnd : (l.map Prod.fst).Nodup) {k v : String} (hm : (k, v) ∈ l) :
    l.find? (fun kv => kv.1 = k) = some (k, v) := by
  induction l with
  | nil => exact absurd hm (List.not_mem_nil _)
  | cons a l ih =>
      simp only [List.map_cons, List.nodup_cons] at hnd
      rcases List.mem_cons.mp hm with rfl | hm2
      · simp [List.find?]
      · have hne : ¬a.1 = k := by
          intro he
          exact hnd.1 (he ▸ (List.mem_map_of_mem Prod.fst hm2))
        have hstep : ((a :: l).find? (fun kv => kv.1 = k)) = l.find? (fun kv => kv.1 = k) := by
          simp [List.find?, hne]
        rw [hstep]
        exact ih hnd.2 hm2

theorem get_tool_phrase_exact {name ph : String} (h : (name, ph) ∈ toolPhrases) :
    get_tool_phrase name = ph := by
  unfold get_tool_phrase
  rw [find?_key_of_nodup (by decide) h]

/-- C9: a tool-start received while content has not started streaming and
the injector is not stopped leaves exactly one pending injection — any
previously pending one is cancelled first, so of several tool-starts in
one window only the latest phrase can fire.  Its delay is
`max(holdoff_remaining, cooldown_remaining)` with holdoff 3500 ms from
the request start and cooldown 7000 ms from the last injection (truncated
subtraction playing the role of `max(0, ..)`), and its phrase is the
exact table entry for the tool name when present, else the entry of a
table key occurring as a substring of the tool name, else the generic
default. -/
theorem tool_start_schedules_latest (evs : List IEv) (name : String) (now : Nat)
    (h1 : (runI evs).contentStreaming = false) (h2 : (runI evs).stopped = false) :
    (istep (runI evs) (IEv.toolStart name now)).pendingList
      = [((runI evs).nextId,
          max (((runI evs).requestStartedAt + holdoffMs) - now)
              (((runI evs).lastInjectTime + cooldownMs) - now),
          get_tool_phrase name)] ∧
    (∀ ph, (name, ph) ∈ toolPhrases → get_tool_phrase name = ph) ∧
    ((∀ ph, (name, ph) ∉ toolPhrases) →
      ((∃ kv, kv ∈ toolPhrases ∧ strContains kv.1 name = true ∧
          get_tool_phrase name = kv.2) ∨
       ((∀ kv ∈ toolPhrases, strContains kv.1 name = false) ∧
          get_tool_phrase name = defaultPhrase))) := by
  refine ⟨?_, fun ph h => get_tool_phrase_exact h, ?_⟩
  · have hInv := invI_runI evs
    obtain ⟨hnil, -, -⟩ := cancelPending_nil hInv
    show (scheduleInject (runI evs) name now).pendingList = _
    unfold scheduleInject
    rw [if_neg (by simp [h1, h2])]
    show ((cancelPending (runI evs)).nextId, injectDelay (runI evs) now,
        get_tool_phrase name) :: (cancelPending (runI evs)).pendingList = _
    rw [hnil, cancelPending_nextId]
    rfl
  · intro hnone
    unfold get_tool_phrase
    have hfe : toolPhrases.find? (fun kv => kv.1 = name) = none := by
      rw [List.find?_eq_none]
      intro kv hkv hkv2
      have hkv3 : kv.1 = name := by simpa using hkv2
      exact hnone kv.2 (by
        have : (kv.1, kv.2) ∈ toolPhrases := by simpa using hkv
        rw [hkv3] at this
        exact this)
    rw [hfe]
    cases hfs : toolPhrases.find? (fun kv => strContains kv.1 name) with
    | some kv =>
        refine Or.inl ⟨kv, List.mem_of_find?_eq_some hfs, ?_, rfl⟩
        have := List.find?_some hfs
        simpa using this
    | none =>
        refine Or.inr ⟨?_, rfl⟩
        intro kv hkv
        have := List.find?_eq_none.mp hfs kv hkv
        simpa using this

/-- Witness for C9: after a turn reset at 10000 ms, a namespaced
tool-start `mcp__brave__web_search` at 11000 ms schedules exactly one
injection with the `web_search` phrase after the remaining 2500 ms
holdoff. -/
theorem tool_start_schedules_latest_witness :
    (istep (runI [IEv.resetEv 10000])
        (IEv.toolStart "mcp__brave__web_search" 11000)).pendingList
      = [(0, 2500, "Let me search for that.")] := by
  have h := tool_start_schedules_latest [IEv.resetEv 10000]
    "mcp__brave__web_search" 11000 rfl rfl
  rw [h.1]
  rfl

end Injector

namespace Bridge

open SessionTimersM

/-- Typed Deepgram events dispatched by `_deepgram_to_twilio`.  The
`farewell` of a `FunctionCallRequest` models `input.get("farewell", ..)`. -/
inductive DgMsg where
  | binary (nbytes : Nat)
  | errorMsg
  | conversationText (role : String) (content : String)
  | userStartedSpeaking
  | agentStartedSpeaking
  | agentAudioDone
  | functionCallRequest (fnName : String) (fnCallId : String) (farewell : Option String)
  | warningMsg
  | unknown (t : String)
deriving DecidableEq

/-- Observable effects of one dispatch step in `_deepgram_to_twilio`. -/
inductive BAct where
  | sendTwilioMedia (nbytes : Nat)
  | sendTwilioClear
  | sendDgFunctionCallResponse (callId : String) (output : String)
  | sendDgInject (msg : String)
  | sleepGraceMs (ms : Nat)
  | setStopEvent
  | timerEffect (a : SessionTimersM.Act)
  | appendTranscript (speaker : String) (text : String)
  | logOnly
deriving DecidableEq

/-- The acknowledgment payload `json.dumps({"ok": True})`. -/
def okTrueJson : String := "\x7b\"ok\": true\x7d"

/-- Bridge-local state of `_deepgram_to_twilio`: the pending-hangup flag,
the shared cancellation signal, and the optional `SessionTimers`. -/
structure BState where
  endCallFarewellPending : Bool
  stopEventSet : Bool
  timers : Option SessionTimersM.TState
deriving DecidableEq

/-- `if timers: ...` — run a timer method when timers exist. -/
def applyTimers (f : SessionTimersM.TState → SessionTimersM.TState × List SessionTimersM.Act)
    (s : BState) : BState × List BAct :=
  match s.timers with
  | none => (s, [])
  | some t =>
      ({ s with timers := some (f t).1 }, (f t).2.map BAct.timerEffect)

/-- One message dispatch of `_deepgram_to_twilio` (reached only when the
stop event is not yet set). -/
def dispatchMsg (cfg : SessionTimersM.Cfg) (s : BState) : DgMsg → BState × List BAct
  | .binary n => (s, [.sendTwilioMedia n])
  | .errorMsg => (s, [.logOnly])
  | .conversationText role content =>
      ((if role = "user" then applyTimers (onUserSpoke cfg) s
        else if role = "assistant" then applyTimers (onAgentStartedSpeaking cfg) s
        else (s, [])).1,
       [.logOnly] ++
         (if content ≠ "" then
           [.appendTranscript (if role = "user" then "user" else "bot") content]
          else []) ++
         (if role = "user" then applyTimers (onUserSpoke cfg) s
          else if role = "assistant" then applyTimers (onAgentStartedSpeaking cfg) s
          else (s, [])).2)
  | .userStartedSpeaking =>
      ((applyTimers (onUserStartedSpeaking cfg) s).1,
       [.sendTwilioClear] ++ (applyTimers (onUserStartedSpeaking cfg) s).2)
  | .agentStartedSpeaking => applyTimers (onAgentStartedSpeaking cfg) s
  | .agentAudioDone =>
      if (applyTimers (onAgentAudioDone cfg) s).1.endCallFarewellPending then
        ({ (applyTimers (onAgentAudioDone cfg) s).1 with
             endCallFarewellPending := false, stopEventSet := true },
         (applyTimers (onAgentAudioDone cfg) s).2 ++
           [.logOnly, .sleepGraceMs 1000, .setStopEvent])
      else applyTimers (onAgentAudioDone cfg) s
  | .functionCallRequest fnName fnCallId farewell =>
      if fnName = "end_call" then
        ({ (applyTimers clearAllOp s).1 with endCallFarewellPending := true },
         [.logOnly] ++ (applyTimers clearAllOp s).2 ++
           [.sendDgFunctionCallResponse fnCallId okTrueJson,
            .sendDgInject (farewell.getD "Goodbye!")])
      else (s, [.logOnly])
  | .warningMsg => (s, [.logOnly])
  | .unknown _ => (s, [.logOnly])

/-- `_deepgram_to_twilio` checks the stop event before dispatching. -/
def processMsg (cfg : SessionTimersM.Cfg) (s : BState) (m : DgMsg) : BState × List BAct :=
  if s.stopEventSet then (s, []) else dispatchMsg cfg s m

theorem applyTimers_stop (f : SessionTimersM.TState → SessionTimersM.TState × List SessionTimersM.Act)
    (s : BState) : (applyTimers f s).1.stopEventSet = s.stopEventSet := by
  unfold applyTimers
  cases s.timers <;> rfl

theorem applyTimers_pending (f : SessionTimersM.TState → SessionTimersM.TState × List SessionTimersM.Act)
    (s : BState) :
    (applyTimers f s).1.endCallFarewellPending = s.endCallFarewellPending := by
  unfold applyTimers
  cases s.timers <;> rfl

/-- Predicate: a function-call acknowledgment action. -/
def isFCResponse : BAct → Bool
  | .sendDgFunctionCallResponse _ _ => true
  | _ => false

/-- Predicate: an agent-message injection action. -/
def isInject : BAct → Bool
  | .sendDgInject _ => true
  | _ => false

/-- C8: on a `FunctionCallRequest` named `end_call` with farewell `F`
(stop event not yet set), the bridge clears all timers (the timer state
becomes exiting with nothing pending), sends exactly one
`FunctionCallResponse` whose output is `{"ok": true}`, sends exactly one
`InjectAgentMessage` carrying `F`, and marks the pending-hangup flag;
the shared cancellation signal stays unset at that point and after any
following non-`AgentAudioDone` message, and is set by the next
`AgentAudioDone` — whose effect trace is exactly log, the fixed 1000 ms
grace sleep, then the signal, so the signal comes only after the sleep. -/
theorem end_call_defers_hangup (cfg : SessionTimersM.Cfg) (s : BState)
    (t : SessionTimersM.TState) (cid F : String)
    (ht : s.timers = some t) (hInv : SessionTimersM.Inv cfg t)
    (hstop : s.stopEventSet = false) :
    (processMsg cfg s (DgMsg.functionCallRequest "end_call" cid (some F))).2
      = [BAct.logOnly, BAct.timerEffect SessionTimersM.Act.logA,
         BAct.sendDgFunctionCallResponse cid okTrueJson, BAct.sendDgInject F] ∧
    ((processMsg cfg s (DgMsg.functionCallRequest "end_call" cid (some F))).2.countP
        isFCResponse = 1 ∧
     (processMsg cfg s (DgMsg.functionCallRequest "end_call" cid (some F))).2.countP
        isInject = 1) ∧
    (processMsg cfg s (DgMsg.functionCallRequest "end_call" cid (some F))).1.endCallFarewellPending
      = true ∧
    (processMsg cfg s (DgMsg.functionCallRequest "end_call" cid (some F))).1.stopEventSet
      = false ∧
    (∃ t1, (processMsg cfg s (DgMsg.functionCallRequest "end_call" cid (some F))).1.timers
        = some t1 ∧ t1.exiting = true ∧ t1.pending = []) ∧
    (∀ m, m ≠ DgMsg.agentAudioDone →
      (processMsg cfg
        (processMsg cfg s (DgMsg.functionCallRequest "end_call" cid (some F))).1 m).1.stopEventSet
        = false) ∧
    (processMsg cfg
      (processMsg cfg s (DgMsg.functionCallRequest "end_call" cid (some F))).1
        DgMsg.agentAudioDone).1.stopEventSet = true ∧
    (processMsg cfg
      (processMsg cfg s (DgMsg.functionCallRequest "end_call" cid (some F))).1
        DgMsg.agentAudioDone).2
      = [BAct.logOnly, BAct.sleepGraceMs 1000, BAct.setStopEvent] := by
  have hr1 : processMsg cfg s (DgMsg.functionCallRequest "end_call" cid (some F)) =
      ({ s with timers := some (clearAllOp t).1, endCallFarewellPending := true },
       [BAct.logOnly, BAct.timerEffect SessionTimersM.Act.logA,
        BAct.sendDgFunctionCallResponse cid okTrueJson, BAct.sendDgInject F]) := by
    unfold processMsg
    rw [if_neg (by simp [hstop])]
    unfold dispatchMsg
    dsimp only
    rw [if_pos rfl]
    unfold applyTimers
    rw [ht]
    rfl
  have ht1ex : (clearAllOp t).1.exiting = true := rfl
  have ht1p : (clearAllOp t).1.pending = [] := by
    show (clearIdleTimers (clearResponseTimers { t with exiting := true })).pending = []
    apply clearBoth_pending_nil
    intro p hp
    obtain ⟨a, k⟩ := p
    have h2 := hInv.handles ⟨a, k⟩ hp
    cases k <;> exact h2
  have hgb : guardBlocks cfg (clearAllOp t).1 = true := by
    simp [guardBlocks, ht1ex]
  have hr2 : processMsg cfg
      ({ s with timers := some (clearAllOp t).1, endCallFarewellPending := true } : BState)
        DgMsg.agentAudioDone =
      ({ s with
          timers := some (clearAllOp t).1,
          endCallFarewellPending := false,
          stopEventSet := true },
       [BAct.logOnly, BAct.sleepGraceMs 1000, BAct.setStopEvent]) := by
    unfold processMsg
    rw [if_neg (by simp [hstop])]
    unfold dispatchMsg
    dsimp only
    unfold applyTimers
    dsimp only
    unfold onAgentAudioDone
    rw [if_pos hgb]
    rw [if_pos rfl]
    rfl
  refine ⟨by rw [hr1], ⟨by rw [hr1]; rfl, by rw [hr1]; rfl⟩, by rw [hr1],
    by rw [hr1]; exact hstop, ⟨(clearAllOp t).1, by rw [hr1], ht1ex, ht1p⟩, ?_,
    by rw [hr1, hr2], by rw [hr1, hr2]⟩
  intro m hm
  rw [hr1]
  unfold processMsg
  rw [if_neg (by simp [hstop])]
  unfold dispatchMsg
  cases m with
  | binary n => exact hstop
  | errorMsg => exact hstop
  | conversationText role content =>
      dsimp only
      split
      · rw [applyTimers_stop]
        exact hstop
      · split
        · rw [applyTimers_stop]
          exact hstop
        · exact hstop
  | userStartedSpeaking =>
      dsimp only
      rw [applyTimers_stop]
      exact hstop
  | agentStartedSpeaking =>
      dsimp only
      rw [applyTimers_stop]
      exact hstop
  | agentAudioDone => exact absurd rfl hm
  | functionCallRequest fn cid2 fw =>
      dsimp only
      split
      · show ({ (applyTimers clearAllOp _).1 with
            endCallFarewellPending := true } : BState).stopEventSet = false
        rw [show ∀ b : BState, ({ b with endCallFarewellPending := true } : BState).stopEventSet
            = b.stopEventSet from fun b => rfl]
        rw [applyTimers_stop]
        exact hstop
      · exact hstop
  | warningMsg => exact hstop
  | unknown ty => exact hstop

/-- Timer configuration for the C8 witness run. -/
def cfgC8 : SessionTimersM.Cfg :=
  { enabled := true, responseReengageMs := 0, responseExitMs := 0,
    idlePromptMs := 100, idleExitMs := 0,
    responseReengageMessage := "", responseExitMessage := "",
    idlePromptMessage := "", idleExitMessage := "",
    postExitDelayMs := none }

/-- Bridge state for the C8 witness: fresh timers, nothing pending. -/
def sC8 : BState := ⟨false, false, some SessionTimersM.init⟩

/-- Witness for C8: the end_call/AgentAudioDone scenario on a concrete
bridge state, with farewell "Goodbye!". -/
theorem end_call_defers_hangup_witness :
    sC8.timers = some SessionTimersM.init ∧
    (processMsg cfgC8 sC8
        (DgMsg.functionCallRequest "end_call" "fc1" (some "Goodbye!"))).2
      = [BAct.logOnly, BAct.timerEffect SessionTimersM.Act.logA,
         BAct.sendDgFunctionCallResponse "fc1" okTrueJson,
         BAct.sendDgInject "Goodbye!"] ∧
    (processMsg cfgC8
      (processMsg cfgC8 sC8
        (DgMsg.functionCallRequest "end_call" "fc1" (some "Goodbye!"))).1
        DgMsg.agentAudioDone).2
      = [BAct.logOnly, BAct.sleepGraceMs 1000, BAct.setStopEvent] := by
  have h := end_call_defers_hangup cfgC8 sC8 SessionTimersM.init "fc1" "Goodbye!" rfl
    (SessionTimersM.inv_of_pending_nil rfl) rfl
  exact ⟨rfl, h.1, h.2.2.2.2.2.2.2⟩

end Bridge

namespace TwilioMedia

/-- The standard base64 alphabet. -/
def b64Alphabet : List Char :=
  "ABCDEFGHIJKLMNOPQRSTUVWXYZabcdefghijklmnopqrstuvwxyz0123456789+/".toList

/-- Digit value to base64 character. -/
def b64Char (n : Nat) : Char := b64Alphabet.getD n 'A'

/-- Base64 character to digit value (64 for characters outside the
alphabet, such as the padding sign). -/
def b64Val (c : Char) : Nat := b64Alphabet.findIdx (fun x => x = c)

/-- `base64.b64encode`: bytes (naturals below 256) to base64 characters,
in 3-byte groups with `=` padding. -/
def b64encode : List Nat → List Char
  | [] => []
  | [b0] =>
      let n := b0 * 65536
      [b64Char (n / 262144 % 64), b64Char (n / 4096 % 64), '=', '=']
  | [b0, b1] =>
      let n := b0 * 65536 + b1 * 256
      [b64Char (n / 262144 % 64), b64Char (n / 4096 % 64), b64Char (n / 64 % 64), '=']
  | b0 :: b1 :: b2 :: rest =>
      let n := b0 * 65536 + b1 * 256 + b2
      b64Char (n / 262144 % 64) :: b64Char (n / 4096 % 64) ::
        b64Char (n / 64 % 64) :: b64Char (n % 64) :: b64encode rest

/-- `base64.b64decode` on well-padded input: 4-character groups, the
padded final group producing one or two bytes. -/
def b64decode : List Char → List Nat
  | c0 :: c1 :: c2 :: c3 :: rest =>
      if c2 = '=' then
        [(b64Val c0 * 262144 + b64Val c1 * 4096) / 65536]
      else if c3 = '=' then
        [(b64Val c0 * 262144 + b64Val c1 * 4096 + b64Val c2 * 64) / 65536,
         (b64Val c0 * 262144 + b64Val c1 * 4096 + b64Val c2 * 64) / 256 % 256]
      else
        (b64Val c0 * 262144 + b64Val c1 * 4096 + b64Val c2 * 64 + b64Val c3) / 65536 ::
          (b64Val c0 * 262144 + b64Val c1 * 4096 + b64Val c2 * 64 + b64Val c3) / 256 % 256 ::
          (b64Val c0 * 262144 + b64Val c1 * 4096 + b64Val c2 * 64 + b64Val c3) % 256 ::
          b64decode rest
  | _ => []

theorem b64Val_b64Char : ∀ v, v < 64 → b64Val (b64Char v) = v := by decide

theorem b64Char_ne_pad : ∀ v, v < 64 → b64Char v ≠ '=' := by decide

theorem b64_roundtrip : ∀ (bs : List Nat), (∀ b ∈ bs, b < 256) →
    b64decode (b64encode bs) = bs
  | [] => fun _ => rfl
  | [b0] => fun h => by
      have hb0 : b0 < 256 := h b0 (by simp)
      show b64decode [b64Char (b0 * 65536 / 262144 % 64),
        b64Char (b0 * 65536 / 4096 % 64), '=', '='] = [b0]
      unfold b64decode
      rw [if_pos rfl]
      rw [b64Val_b64Char _ (Nat.mod_lt _ (by omega)),
          b64Val_b64Char _ (Nat.mod_lt _ (by omega))]
      simp only [List.cons.injEq, and_true]
      omega
  | [b0, b1] => fun h => by
      have hb0 : b0 < 256 := h b0 (by simp)
      have hb1 : b1 < 256 := h b1 (by simp)
      show b64decode [b64Char ((b0 * 65536 + b1 * 256) / 262144 % 64),
        b64Char ((b0 * 65536 + b1 * 256) / 4096 % 64),
        b64Char ((b0 * 65536 + b1 * 256) / 64 % 64), '='] = [b0, b1]
      unfold b64decode
      rw [if_neg (b64Char_ne_pad _ (Nat.mod_lt _ (by omega)))]
      rw [if_pos rfl]
      rw [b64Val_b64Char _ (Nat.mod_lt _ (by omega)),
          b64Val_b64Char _ (Nat.mod_lt _ (by omega)),
          b64Val_b64Char _ (Nat.mod_lt _ (by omega))]
      simp only [List.cons.injEq, and_true]
      omega
  | b0 :: b1 :: b2 :: rest => fun h => by
      have hb0 : b0 < 256 := h b0 (by simp)
      have hb1 : b1 < 256 := h b1 (by simp)
      have hb2 : b2 < 256 := h b2 (by simp)
      have ih := b64_roundtrip rest (fun b hb => h b (by simp [hb]))
      show b64decode (b64Char ((b0 * 65536 + b1 * 256 + b2) / 262144 % 64) ::
        b64Char ((b0 * 65536 + b1 * 256 + b2) / 4096 % 64) ::
        b64Char ((b0 * 65536 + b1 * 256 + b2) / 64 % 64) ::
        b64Char ((b0 * 65536 + b1 * 256 + b2) % 64) :: b64encode rest) = b0 :: b1 :: b2 :: rest
      unfold b64decode
      rw [if_neg (b64Char_ne_pad _ (Nat.mod_lt _ (by omega)))]
      rw [if_neg (b64Char_ne_pad _ (Nat.mod_lt _ (by omega)))]
      rw [b64Val_b64Char _ (Nat.mod_lt _ (by omega)),
          b64Val_b64Char _ (Nat.mod_lt _ (by omega)),
          b64Val_b64Char _ (Nat.mod_lt _ (by omega)),
          b64Val_b64Char _ (Nat.mod_lt _ (by omega))]
      rw [ih]
      simp only [List.cons.injEq, and_true]
      refine ⟨by omega, by omega, by omega⟩

/-- JSON values produced and consumed by the Twilio media codec: strings
and objects (the only constructors the codec events use). -/
inductive Json where
  | str (s : List Char)
  | obj (fields : List (List Char × Json))

/-- Lowercase hex digit, as emitted by `json.dumps` in `\uXXXX`. -/
def hexDigit (n : Nat) : Char := "0123456789abcdef".toList.getD n '0'

/-- A `\uXXXX` escape for a code below 0x10000. -/
def uEscape (n : Nat) : List Char :=
  ['\\', 'u', hexDigit (n / 4096 % 16), hexDigit (n / 256 % 16),
   hexDigit (n / 16 % 16), hexDigit (n % 16)]

/-- How `json.dumps` (with its default `ensure_ascii=True`) emits one
character inside a string literal: the two-character escapes, `\uXXXX`
for other control or non-ASCII characters, surrogate pairs for
characters beyond the basic plane, and the character itself otherwise. -/
def escapeChar (c : Char) : List Char :=
  if c = '"' then ['\\', '"']
  else if c = '\\' then ['\\', '\\']
  else if c = '\n' then ['\\', 'n']
  else if c = '\t' then ['\\', 't']
  else if c = '\r' then ['\\', 'r']
  else if c = '\x08' then ['\\', 'b']
  else if c = '\x0c' then ['\\', 'f']
  else if c.toNat < 0x20 then uEscape c.toNat
  else if c.toNat < 0x7f then [c]
  else if c.toNat < 0x10000 then uEscape c.toNat
  else uEscape (0xD800 + (c.toNat - 0x10000) / 1024) ++
       uEscape (0xDC00 + (c.toNat - 0x10000) % 1024)

/-- A JSON string literal. -/
def dumpString (s : List Char) : List Char :=
  '"' :: (s.map escapeChar).flatten ++ ['"']

mutual

/-- `json.dumps` with its default separators `", "` and `": "`. -/
def dumps : Json → List Char
  | .str s => dumpString s
  | .obj fields => '{' :: (dumpFields fields ++ ['}'])

/-- The comma-separated field list of an object. -/
def dumpFields : List (List Char × Json) → List Char
  | [] => []
  | [(k, v)] => dumpString k ++ ':' :: ' ' :: dumps v
  | (k, v) :: rest =>
      dumpString k ++ ':' :: ' ' :: dumps v ++ ',' :: ' ' :: dumpFields rest

end

/-- JSON whitespace skipping. -/
def skipWs : List Char → List Char
  | [] => []
  | c :: rest =>
      if c = ' ' ∨ c = '\t' ∨ c = '\n' ∨ c = '\r' then skipWs rest else c :: rest

/-- Hex digit value (both cases accepted, as by `json.loads`). -/
def parseHexDigit (c : Char) : Option Nat :=
  if c = '0' then some 0 else if c = '1' then some 1
  else if c = '2' then some 2 else if c = '3' then some 3
  else if c = '4' then some 4 else if c = '5' then some 5
  else if c = '6' then some 6 else if c = '7' then some 7
  else if c = '8' then some 8 else if c = '9' then some 9
  else if c = 'a' ∨ c = 'A' then some 10 else if c = 'b' ∨ c = 'B' then some 11
  else if c = 'c' ∨ c = 'C' then some 12 else if c = 'd' ∨ c = 'D' then some 13
  else if c = 'e' ∨ c = 'E' then some 14 else if c = 'f' ∨ c = 'F' then some 15
  else none

/-- The unescaped character of a two-character escape. -/
def escCharOf (e : Char) : Option Char :=
  if e = '"' then some '"'
  else if e = '\\' then some '\\'
  else if e = '/' then some '/'
  else if e = 'b' then some '\x08'
  else if e = 'f' then some '\x0c'
  else if e = 'n' then some '\n'
  else if e = 'r' then some '\r'
  else if e = 't' then some '\t'
  else none

/-- Parse a JSON string body (after the opening quote), returning the
string and the rest of the input.  Surrogate escape pairs are combined;
a lone surrogate escape is rejected (the codec never emits one). -/
def parseHex4 : List Char → Option (Nat × List Char)
  | h1 :: h2 :: h3 :: h4 :: rest =>
      match parseHexDigit h1, parseHexDigit h2, parseHexDigit h3, parseHexDigit h4 with
      | some a, some b, some c, some d => some (a * 4096 + b * 256 + c * 16 + d, rest)
      | _, _, _, _ => none
  | _ => none

/-- Decode a `\uXXXX` escape (after the `\u`): a high surrogate must be
followed by a matching `\uXXXX` low surrogate and the pair is combined;
a lone surrogate is rejected (the codec never emits one). -/
def parseUEsc (rest2 : List Char) : Option (Char × List Char) :=
  match parseHex4 rest2 with
  | none => none
  | some (n, rest3) =>
      if 0xD800 ≤ n ∧ n < 0xDC00 then
        match rest3 with
        | bs :: u2 :: rest3b =>
            if bs = '\\' ∧ u2 = 'u' then
              match parseHex4 rest3b with
              | none => none
              | some (n2, rest4) =>
                  if 0xDC00 ≤ n2 ∧ n2 < 0xE000 then
                    some (Char.ofNat (0x10000 + (n - 0xD800) * 1024 + (n2 - 0xDC00)), rest4)
                  else none
            else none
        | _ => none
      else if 0xDC00 ≤ n ∧ n < 0xE000 then none
      else some (Char.ofNat n, rest3)

/-- Decode one backslash escape (after the backslash), returning the
character and the rest of the input. -/
def parseEsc : List Char → Option (Char × List Char)
  | [] => none
  | e :: rest2 =>
      if e = 'u' then parseUEsc rest2
      else
        match escCharOf e with
        | none => none
        | some d => some (d, rest2)

def parseStr : Nat → List Char → Option (List Char × List Char)
  | 0, _ => none
  | _ + 1, [] => none
  | fuel + 1, c :: rest =>
      if c = '"' then some ([], rest)
      else if c = '\\' then
        match parseEsc rest with
        | none => none
        | some (d, rest2) =>
            match parseStr fuel rest2 with
            | none => none
            | some (s, r) => some (d :: s, r)
      else
        match parseStr fuel rest with
        | none => none
        | some (s, r) => some (c :: s, r)

mutual

/-- Fuelled JSON value parser for the string/object fragment. -/
def parseValue : Nat → List Char → Option (Json × List Char)
  | 0, _ => none
  | fuel + 1, s =>
      match skipWs s with
      | [] => none
      | c :: rest =>
          if c = '"' then
            match parseStr fuel rest with
            | some (str, r) => some (.str str, r)
            | none => none
          else if c = '{' then
            match skipWs rest with
            | [] => none
            | c2 :: rest2 =>
                if c2 = '}' then some (.obj [], rest2)
                else
                  match parseFields fuel (c2 :: rest2) with
                  | some (fs, r) => some (.obj fs, r)
                  | none => none
          else none

/-- Parse `"key": value` fields up to and including the closing brace. -/
def parseFields : Nat → List Char → Option (List (List Char × Json) × List Char)
  | 0, _ => none
  | fuel + 1, s =>
      match skipWs s with
      | [] => none
      | c :: rest =>
          if c = '"' then
            match parseStr fuel rest with
            | none => none
            | some (key, r1) =>
                match skipWs r1 with
                | [] => none
                | c2 :: r2 =>
                    if c2 = ':' then
                      match parseValue fuel r2 with
                      | none => none
                      | some (v, r3) =>
                          match skipWs r3 with
                          | [] => none
                          | c3 :: r4 =>
                              if c3 = ',' then
                                match parseFields fuel r4 with
                                | none => none
                                | some (fs, r5) => some ((key, v) :: fs, r5)
                              else if c3 = '}' then some ([(key, v)], r4)
                              else none
                    else none
          else none

end

/-- `json.loads` restricted to the string/object fragment the codec
uses: `None` on input it cannot parse. -/
def json_loads (s : List Char) : Option Json :=
  match parseValue (s.length + 1) s with
  | some (v, r) =>
      match skipWs r with
      | [] => some v
      | _ => none
  | none => none

theorem parseHexDigit_hexDigit : ∀ d, d < 16 → parseHexDigit (hexDigit d) = some d := by
  decide

theorem parseStr_quote (f : Nat) (l : List Char) :
    parseStr (f + 1) ('"' :: l) = some ([], l) := by
  rw [parseStr, if_pos rfl]

theorem parseStr_plain (f : Nat) {c : Char} (hq : ¬c = '"') (hb : ¬c = '\\') (l : List Char) :
    parseStr (f + 1) (c :: l) =
      match parseStr f l with
      | none => none
      | some (s, r) => some (c :: s, r) := by
  rw [parseStr, if_neg hq, if_neg hb]

theorem parseEsc_simple {e : Char} (he : ¬e = 'u') {d : Char}
    (hd : escCharOf e = some d) (l : List Char) :
    parseEsc (e :: l) = some (d, l) := by
  rw [parseEsc, if_neg he, hd]

theorem parseEsc_u (l : List Char) : parseEsc ('u' :: l) = parseUEsc l := by
  rw [parseEsc, if_pos rfl]

theorem parseStr_esc (f : Nat) {e : Char} (he : ¬e = 'u') {d : Char}
    (hd : escCharOf e = some d) (l : List Char) :
    parseStr (f + 1) ('\\' :: e :: l) =
      match parseStr f l with
      | none => none
      | some (s, r) => some (d :: s, r) := by
  rw [parseStr, if_neg (by decide), if_pos rfl, parseEsc_simple he hd]

theorem parseHex4_digits {h1 h2 h3 h4 : Char} {a b c d : Nat}
    (p1 : parseHexDigit h1 = some a) (p2 : parseHexDigit h2 = some b)
    (p3 : parseHexDigit h3 = some c) (p4 : parseHexDigit h4 = some d)
    (rest : List Char) :
    parseHex4 (h1 :: h2 :: h3 :: h4 :: rest) =
      some (a * 4096 + b * 256 + c * 16 + d, rest) := by
  rw [parseHex4, p1, p2, p3, p4]

theorem parseUEsc_single {h1 h2 h3 h4 : Char} {a b c2 d : Nat}
    (p1 : parseHexDigit h1 = some a) (p2 : parseHexDigit h2 = some b)
    (p3 : parseHexDigit h3 = some c2) (p4 : parseHexDigit h4 = some d)
    (hns : ¬(0xD800 ≤ a * 4096 + b * 256 + c2 * 16 + d ∧
             a * 4096 + b * 256 + c2 * 16 + d < 0xDC00))
    (hns2 : ¬(0xDC00 ≤ a * 4096 + b * 256 + c2 * 16 + d ∧
              a * 4096 + b * 256 + c2 * 16 + d < 0xE000))
    (l : List Char) :
    parseUEsc (h1 :: h2 :: h3 :: h4 :: l) =
      some (Char.ofNat (a * 4096 + b * 256 + c2 * 16 + d), l) := by
  unfold parseUEsc
  rw [parseHex4_digits p1 p2 p3 p4]
  dsimp only
  rw [if_neg hns, if_neg hns2]

theorem parseStr_u (f : Nat) {h1 h2 h3 h4 : Char} {a b c2 d : Nat}
    (p1 : parseHexDigit h1 = some a) (p2 : parseHexDigit h2 = some b)
    (p3 : parseHexDigit h3 = some c2) (p4 : parseHexDigit h4 = some d)
    (hns : ¬(0xD800 ≤ a * 4096 + b * 256 + c2 * 16 + d ∧
             a * 4096 + b * 256 + c2 * 16 + d < 0xDC00))
    (hns2 : ¬(0xDC00 ≤ a * 4096 + b * 256 + c2 * 16 + d ∧
              a * 4096 + b * 256 + c2 * 16 + d < 0xE000))
    (l : List Char) :
    parseStr (f + 1) ('\\' :: 'u' :: h1 :: h2 :: h3 :: h4 :: l) =
      match parseStr f l with
      | none => none
      | some (s, r) => some (Char.ofNat (a * 4096 + b * 256 + c2 * 16 + d) :: s, r) := by
  rw [parseStr, if_neg (by decide), if_pos rfl, parseEsc_u,
      parseUEsc_single p1 p2 p3 p4 hns hns2]

theorem parseUEsc_pair {h1 h2 h3 h4 g1 g2 g3 g4 : Char} {a b c2 d a2 b2 c3 d2 : Nat}
    (p1 : parseHexDigit h1 = some a) (p2 : parseHexDigit h2 = some b)
    (p3 : parseHexDigit h3 = some c2) (p4 : parseHexDigit h4 = some d)
    (q1 : parseHexDigit g1 = some a2) (q2 : parseHexDigit g2 = some b2)
    (q3 : parseHexDigit g3 = some c3) (q4 : parseHexDigit g4 = some d2)
    (hhi : 0xD800 ≤ a * 4096 + b * 256 + c2 * 16 + d ∧
           a * 4096 + b * 256 + c2 * 16 + d < 0xDC00)
    (hlo : 0xDC00 ≤ a2 * 4096 + b2 * 256 + c3 * 16 + d2 ∧
           a2 * 4096 + b2 * 256 + c3 * 16 + d2 < 0xE000)
    (l : List Char) :
    parseUEsc (h1 :: h2 :: h3 :: h4 :: '\\' :: 'u' :: g1 :: g2 :: g3 :: g4 :: l) =
      some (Char.ofNat (0x10000 +
        (a * 4096 + b * 256 + c2 * 16 + d - 0xD800) * 1024 +
        (a2 * 4096 + b2 * 256 + c3 * 16 + d2 - 0xDC00)), l) := by
  unfold parseUEsc
  rw [parseHex4_digits p1 p2 p3 p4]
  dsimp only
  rw [if_pos hhi, if_pos (by decide : ('\\' : Char) = '\\' ∧ ('u' : Char) = 'u'),
      parseHex4_digits q1 q2 q3 q4]
  dsimp only
  rw [if_pos hlo]

theorem parseStr_u_pair (f : Nat) {h1 h2 h3 h4 g1 g2 g3 g4 : Char} {a b c2 d a2 b2 c3 d2 : Nat}
    (p1 : parseHexDigit h1 = some a) (p2 : parseHexDigit h2 = some b)
    (p3 : parseHexDigit h3 = some c2) (p4 : parseHexDigit h4 = some d)
    (q1 : parseHexDigit g1 = some a2) (q2 : parseHexDigit g2 = some b2)
    (q3 : parseHexDigit g3 = some c3) (q4 : parseHexDigit g4 = some d2)
    (hhi : 0xD800 ≤ a * 4096 + b * 256 + c2 * 16 + d ∧
           a * 4096 + b * 256 + c2 * 16 + d < 0xDC00)
    (hlo : 0xDC00 ≤ a2 * 4096 + b2 * 256 + c3 * 16 + d2 ∧
           a2 * 4096 + b2 * 256 + c3 * 16 + d2 < 0xE000)
    (l : List Char) :
    parseStr (f + 1) ('\\' :: 'u' :: h1 :: h2 :: h3 :: h4 :: '\\' :: 'u' ::
        g1 :: g2 :: g3 :: g4 :: l) =
      match parseStr f l with
      | none => none
      | some (s, r) =>
          some (Char.ofNat (0x10000 +
            (a * 4096 + b * 256 + c2 * 16 + d - 0xD800) * 1024 +
            (a2 * 4096 + b2 * 256 + c3 * 16 + d2 - 0xDC00)) :: s, r) := by
  rw [parseStr, if_neg (by decide), if_pos rfl, parseEsc_u,
      parseUEsc_pair p1 p2 p3 p4 q1 q2 q3 q4 hhi hlo]

theorem parseStr_dumpBody : ∀ (s : List Char) (f : Nat) (rest : List Char),
    s.length + 1 ≤ f →
    parseStr f ((s.map escapeChar).flatten ++ '"' :: rest) = some (s, rest)
  | [], f, rest, hf => by
      obtain ⟨f', rfl⟩ : ∃ f', f = f' + 1 := ⟨f - 1, by omega⟩
      show parseStr (f' + 1) ('"' :: rest) = some ([], rest)
      exact parseStr_quote f' rest
  | c :: s, f, rest, hf => by
      obtain ⟨f', rfl⟩ : ∃ f', f = f' + 1 := ⟨f - 1, by omega⟩
      have ih := parseStr_dumpBody s f' rest (by simp at hf; omega)
      rw [List.map_cons, List.flatten_cons, List.append_assoc]
      show parseStr (f' + 1) (escapeChar c ++ ((s.map escapeChar).flatten ++ '"' :: rest))
        = some (c :: s, rest)
      have hval : c.toNat < 0xD800 ∨ (0xDFFF < c.toNat ∧ c.toNat < 0x110000) := c.valid
      by_cases hc1 : c = '"'
      · subst hc1
        show parseStr (f' + 1) ('\\' :: '"' :: ((s.map escapeChar).flatten ++ '"' :: rest))
          = some ('"' :: s, rest)
        rw [parseStr_esc f' (by decide) (by decide : escCharOf '"' = some '"'), ih]
      by_cases hc2 : c = '\\'
      · subst hc2
        show parseStr (f' + 1) ('\\' :: '\\' :: ((s.map escapeChar).flatten ++ '"' :: rest))
          = some ('\\' :: s, rest)
        rw [parseStr_esc f' (by decide) (by decide : escCharOf '\\' = some '\\'), ih]
      by_cases hc3 : c = '\n'
      · subst hc3
        show parseStr (f' + 1) ('\\' :: 'n' :: ((s.map escapeChar).flatten ++ '"' :: rest))
          = some ('\n' :: s, rest)
        rw [parseStr_esc f' (by decide) (by decide : escCharOf 'n' = some '\n'), ih]
      by_cases hc4 : c = '\t'
      · subst hc4
        show parseStr (f' + 1) ('\\' :: 't' :: ((s.map escapeChar).flatten ++ '"' :: rest))
          = some ('\t' :: s, rest)
        rw [parseStr_esc f' (by decide) (by decide : escCharOf 't' = some '\t'), ih]
      by_cases hc5 : c = '\r'
      · subst hc5
        show parseStr (f' + 1) ('\\' :: 'r' :: ((s.map escapeChar).flatten ++ '"' :: rest))
          = some ('\r' :: s, rest)
        rw [parseStr_esc f' (by decide) (by decide : escCharOf 'r' = some '\r'), ih]
      by_cases hc6 : c = '\x08'
      · subst hc6
        show parseStr (f' + 1) ('\\' :: 'b' :: ((s.map escapeChar).flatten ++ '"' :: rest))
          = some ('\x08' :: s, rest)
        rw [parseStr_esc f' (by decide) (by decide : escCharOf 'b' = some '\x08'), ih]
      by_cases hc7 : c = '\x0c'
      · subst hc7
        show parseStr (f' + 1) ('\\' :: 'f' :: ((s.map escapeChar).flatten ++ '"' :: rest))
          = some ('\x0c' :: s, rest)
        rw [parseStr_esc f' (by decide) (by decide : escCharOf 'f' = some '\x0c'), ih]
      by_cases h8 : c.toNat < 0x20
      · have hec : escapeChar c = uEscape c.toNat := by
          rw [escapeChar, if_neg hc1, if_neg hc2, if_neg hc3, if_neg hc4, if_neg hc5,
              if_neg hc6, if_neg hc7, if_pos h8]
        rw [hec]
        show parseStr (f' + 1) ('\\' :: 'u' :: hexDigit (c.toNat / 4096 % 16) ::
            hexDigit (c.toNat / 256 % 16) :: hexDigit (c.toNat / 16 % 16) ::
            hexDigit (c.toNat % 16) :: ((s.map escapeChar).flatten ++ '"' :: rest))
          = some (c :: s, rest)
        rw [parseStr_u f' (parseHexDigit_hexDigit _ (by omega))
            (parseHexDigit_hexDigit _ (by omega))
            (parseHexDigit_hexDigit _ (by omega))
            (parseHexDigit_hexDigit _ (by omega))
            (by omega) (by omega), ih]
        have hn : c.toNat / 4096 % 16 * 4096 + c.toNat / 256 % 16 * 256 +
            c.toNat / 16 % 16 * 16 + c.toNat % 16 = c.toNat := by omega
        rw [hn, Char.ofNat_toNat]
      by_cases h9 : c.toNat < 0x7f
      · have hec : escapeChar c = [c] := by
          rw [escapeChar, if_neg hc1, if_neg hc2, if_neg hc3, if_neg hc4, if_neg hc5,
              if_neg hc6, if_neg hc7, if_neg h8, if_pos h9]
        rw [hec]
        show parseStr (f' + 1) (c :: ((s.map escapeChar).flatten ++ '"' :: rest))
          = some (c :: s, rest)
        rw [parseStr_plain f' hc1 hc2, ih]
      by_cases h10 : c.toNat < 0x10000
      · have hec : escapeChar c = uEscape c.toNat := by
          rw [escapeChar, if_neg hc1, if_neg hc2, if_neg hc3, if_neg hc4, if_neg hc5,
              if_neg hc6, if_neg hc7, if_neg h8, if_neg h9, if_pos h10]
        rw [hec]
        show parseStr (f' + 1) ('\\' :: 'u' :: hexDigit (c.toNat / 4096 % 16) ::
            hexDigit (c.toNat / 256 % 16) :: hexDigit (c.toNat / 16 % 16) ::
            hexDigit (c.toNat % 16) :: ((s.map escapeChar).flatten ++ '"' :: rest))
          = some (c :: s, rest)
        rw [parseStr_u f' (parseHexDigit_hexDigit _ (by omega))
            (parseHexDigit_hexDigit _ (by omega))
            (parseHexDigit_hexDigit _ (by omega))
            (parseHexDigit_hexDigit _ (by omega))
            (by omega) (by omega), ih]
        have hn : c.toNat / 4096 % 16 * 4096 + c.toNat / 256 % 16 * 256 +
            c.toNat / 16 % 16 * 16 + c.toNat % 16 = c.toNat := by omega
        rw [hn, Char.ofNat_toNat]
      · have hec : escapeChar c = uEscape (0xD800 + (c.toNat - 0x10000) / 1024) ++
            uEscape (0xDC00 + (c.toNat - 0x10000) % 1024) := by
          rw [escapeChar, if_neg hc1, if_neg hc2, if_neg hc3, if_neg hc4, if_neg hc5,
              if_neg hc6, if_neg hc7, if_neg h8, if_neg h9, if_neg h10]
        rw [hec]
        show parseStr (f' + 1) ('\\' :: 'u' ::
            hexDigit ((0xD800 + (c.toNat - 0x10000) / 1024) / 4096 % 16) ::
            hexDigit ((0xD800 + (c.toNat - 0x10000) / 1024) / 256 % 16) ::
            hexDigit ((0xD800 + (c.toNat - 0x10000) / 1024) / 16 % 16) ::
            hexDigit ((0xD800 + (c.toNat - 0x10000) / 1024) % 16) :: '\\' :: 'u' ::
            hexDigit ((0xDC00 + (c.toNat - 0x10000) % 1024) / 4096 % 16) ::
            hexDigit ((0xDC00 + (c.toNat - 0x10000) % 1024) / 256 % 16) ::
            hexDigit ((0xDC00 + (c.toNat - 0x10000) % 1024) / 16 % 16) ::
            hexDigit ((0xDC00 + (c.toNat - 0x10000) % 1024) % 16) ::
            ((s.map escapeChar).flatten ++ '"' :: rest))
          = some (c :: s, rest)
        rw [parseStr_u_pair f' (parseHexDigit_hexDigit _ (by omega))
            (parseHexDigit_hexDigit _ (by omega))
            (parseHexDigit_hexDigit _ (by omega))
            (parseHexDigit_hexDigit _ (by omega))
            (parseHexDigit_hexDigit _ (by omega))
            (parseHexDigit_hexDigit _ (by omega))
            (parseHexDigit_hexDigit _ (by omega))
            (parseHexDigit_hexDigit _ (by omega))
            (by constructor <;> omega) (by constructor <;> omega), ih]
        have hn : 0x10000 +
            ((0xD800 + (c.toNat - 0x10000) / 1024) / 4096 % 16 * 4096 +
             (0xD800 + (c.toNat - 0x10000) / 1024) / 256 % 16 * 256 +
             (0xD800 + (c.toNat - 0x10000) / 1024) / 16 % 16 * 16 +
             (0xD800 + (c.toNat - 0x10000) / 1024) % 16 - 0xD800) * 1024 +
            ((0xDC00 + (c.toNat - 0x10000) % 1024) / 4096 % 16 * 4096 +
             (0xDC00 + (c.toNat - 0x10000) % 1024) / 256 % 16 * 256 +
             (0xDC00 + (c.toNat - 0x10000) % 1024) / 16 % 16 * 16 +
             (0xDC00 + (c.toNat - 0x10000) % 1024) % 16 - 0xDC00) = c.toNat := by
          omega
        rw [hn, Char.ofNat_toNat]

theorem skipWs_nonWs {c : Char} (h : ¬(c = ' ' ∨ c = '\t' ∨ c = '\n' ∨ c = '\r'))
    (l : List Char) : skipWs (c :: l) = c :: l := by
  rw [skipWs, if_neg h]

theorem skipWs_space (l : List Char) : skipWs (' ' :: l) = skipWs l := by
  rw [skipWs, if_pos (Or.inl rfl)]

theorem parseValue_ws (f : Nat) (l : List Char) :
    parseValue f (' ' :: l) = parseValue f l := by
  cases f with
  | zero => rfl
  | succ g => rw [parseValue, parseValue, skipWs_space]

theorem parseFields_ws (f : Nat) (l : List Char) :
    parseFields f (' ' :: l) = parseFields f l := by
  cases f with
  | zero => rfl
  | succ g => rw [parseFields, parseFields, skipWs_space]

mutual

/-- Fuel lower bound under which `parseValue` is complete for `dumps` output. -/
def jsize : Json → Nat
  | .str s => s.length + 2
  | .obj fields => fsize fields + 1

/-- Fuel lower bound for a nonempty field list. -/
def fsize : List (List Char × Json) → Nat
  | [] => 1
  | (k, v) :: rest => k.length + jsize v + fsize rest + 2

end

mutual

theorem parse_dumps : ∀ (v : Json) (f : Nat) (rest : List Char), jsize v ≤ f →
    parseValue f (dumps v ++ rest) = some (v, rest)
  | .str s, f, rest, hf => by
      simp only [jsize] at hf
      obtain ⟨f', rfl⟩ : ∃ f', f = f' + 1 := ⟨f - 1, by omega⟩
      have hshape : dumps (.str s) ++ rest =
          '"' :: ((s.map escapeChar).flatten ++ '"' :: rest) := by
        simp [dumps, dumpString]
      rw [hshape, parseValue, skipWs_nonWs (by decide)]
      dsimp only
      rw [if_pos rfl, parseStr_dumpBody s f' rest (by omega)]
  | .obj [], f, rest, hf => by
      simp only [jsize, fsize] at hf
      obtain ⟨f', rfl⟩ : ∃ f', f = f' + 1 := ⟨f - 1, by omega⟩
      have hshape : dumps (.obj []) ++ rest = '{' :: '}' :: rest := by
        simp [dumps, dumpFields]
      rw [hshape, parseValue, skipWs_nonWs (by decide)]
      dsimp only
      rw [if_neg (by decide), if_pos rfl, skipWs_nonWs (by decide)]
      dsimp only
      rw [if_pos rfl]
  | .obj (fd :: fds), f, rest, hf => by
      simp only [jsize] at hf
      obtain ⟨f', rfl⟩ : ∃ f', f = f' + 1 := ⟨f - 1, by omega⟩
      have hshape : dumps (.obj (fd :: fds)) ++ rest =
          '{' :: (dumpFields (fd :: fds) ++ '}' :: rest) := by
        simp [dumps]
      rw [hshape, parseValue, skipWs_nonWs (by decide)]
      dsimp only
      rw [if_neg (by decide), if_pos rfl]
      obtain ⟨T, hT⟩ : ∃ T, dumpFields (fd :: fds) = '"' :: T := by
        obtain ⟨k, v⟩ := fd
        cases fds with
        | nil =>
            exact ⟨(k.map escapeChar).flatten ++ '"' :: ':' :: ' ' :: dumps v,
              by simp [dumpFields, dumpString]⟩
        | cons fd2 fds2 =>
            exact ⟨(k.map escapeChar).flatten ++ '"' :: ':' :: ' ' ::
                (dumps v ++ ',' :: ' ' :: dumpFields (fd2 :: fds2)),
              by simp [dumpFields, dumpString]⟩
      rw [hT, List.cons_append, skipWs_nonWs (by decide)]
      dsimp only
      rw [if_neg (by decide), ← List.cons_append, ← hT,
          parse_dumpFields (fd :: fds) f' rest (List.cons_ne_nil _ _) (by omega)]
  termination_by v _ _ _ => sizeOf v

theorem parse_dumpFields : ∀ (fields : List (List Char × Json)) (f : Nat)
    (rest : List Char), fields ≠ [] → fsize fields ≤ f →
    parseFields f (dumpFields fields ++ '}' :: rest) = some (fields, rest)
  | [], _, _, hne, _ => absurd rfl hne
  | [(k, v)], f, rest, _, hf => by
      simp only [fsize] at hf
      obtain ⟨f', rfl⟩ : ∃ f', f = f' + 1 := ⟨f - 1, by omega⟩
      have hshape : dumpFields [(k, v)] ++ '}' :: rest =
          '"' :: ((k.map escapeChar).flatten ++
            '"' :: (':' :: ' ' :: (dumps v ++ '}' :: rest))) := by
        simp [dumpFields, dumpString]
      rw [hshape, parseFields, skipWs_nonWs (by decide)]
      dsimp only
      rw [if_pos rfl, parseStr_dumpBody k f' _ (by omega)]
      dsimp only
      rw [skipWs_nonWs (by decide)]
      dsimp only
      rw [if_pos rfl, parseValue_ws, parse_dumps v f' _ (by omega)]
      dsimp only
      rw [skipWs_nonWs (by decide)]
      dsimp only
      rw [if_neg (by decide), if_pos rfl]
  | (k, v) :: fd2 :: fds, f, rest, _, hf => by
      have hf' : k.length + jsize v + fsize (fd2 :: fds) + 2 ≤ f := by
        simpa only [fsize] using hf
      obtain ⟨f', rfl⟩ : ∃ f', f = f' + 1 := ⟨f - 1, by omega⟩
      have hshape : dumpFields ((k, v) :: fd2 :: fds) ++ '}' :: rest =
          '"' :: ((k.map escapeChar).flatten ++
            '"' :: (':' :: ' ' :: (dumps v ++
              ',' :: ' ' :: (dumpFields (fd2 :: fds) ++ '}' :: rest)))) := by
        simp [dumpFields, dumpString]
      rw [hshape, parseFields, skipWs_nonWs (by decide)]
      dsimp only
      rw [if_pos rfl, parseStr_dumpBody k f' _ (by omega)]
      dsimp only
      rw [skipWs_nonWs (by decide)]
      dsimp only
      rw [if_pos rfl, parseValue_ws, parse_dumps v f' _ (by omega)]
      dsimp only
      rw [skipWs_nonWs (by decide)]
      dsimp only
      rw [if_pos rfl, parseFields_ws,
          parse_dumpFields (fd2 :: fds) f' rest (List.cons_ne_nil _ _) (by omega)]
  termination_by fields _ _ _ _ => sizeOf fields

end

theorem escapeChar_len (c : Char) : 1 ≤ (escapeChar c).length := by
  rw [escapeChar]
  repeat' split
  all_goals simp [uEscape]

theorem flatten_escape_len : ∀ (s : List Char),
    s.length ≤ ((s.map escapeChar).flatten).length
  | [] => by simp
  | c :: s => by
      have ih := flatten_escape_len s
      have hc := escapeChar_len c
      simp only [List.map_cons, List.flatten_cons, List.length_append, List.length_cons]
      omega

mutual

theorem jsize_le_dumps : ∀ (v : Json), jsize v ≤ (dumps v).length + 1
  | .str s => by
      have h := flatten_escape_len s
      simp only [jsize, dumps, dumpString]
      simp only [List.length_cons, List.length_append, List.length_singleton]
      omega
  | .obj fields => by
      have h := fsize_le_dumpFields fields
      simp only [jsize, dumps]
      simp only [List.length_cons, List.length_append, List.length_singleton]
      omega
  termination_by v => sizeOf v

theorem fsize_le_dumpFields : ∀ (fields : List (List Char × Json)),
    fsize fields ≤ (dumpFields fields).length + 2
  | [] => by simp [fsize, dumpFields]
  | [(k, v)] => by
      have h1 := jsize_le_dumps v
      have h2 := flatten_escape_len k
      simp only [fsize, dumpFields, dumpString]
      simp only [List.length_cons, List.length_append, List.length_singleton]
      omega
  | (k, v) :: fd2 :: fds => by
      have h1 := jsize_le_dumps v
      have h2 := flatten_escape_len k
      have h3 := fsize_le_dumpFields (fd2 :: fds)
      rw [fsize, dumpFields]
      · simp only [dumpString, List.length_cons, List.length_append, List.length_singleton]
        omega
      · exact fun h => List.noConfusion h
  termination_by fields => sizeOf fields

end

theorem json_loads_dumps (v : Json) : json_loads (dumps v) = some v := by
  have h := parse_dumps v ((dumps v).length + 1) [] (by have := jsize_le_dumps v; omega)
  rw [List.append_nil] at h
  unfold json_loads
  rw [h]
  rfl

/-- Python `dict` lookup on a parsed JSON object (`json.loads` keeps the
last of duplicate keys, so the rightmost binding wins). -/
def dictGet (fields : List (List Char × Json)) (key : List Char) : Option Json :=
  (fields.reverse.find? (fun kv => kv.1 == key)).map Prod.snd

/-- `parse_twilio_event`: `json.loads`, `None` on invalid JSON. -/
def parse_twilio_event (raw : List Char) : Option Json := json_loads raw

/-- `extract_audio_from_media_event`: `event.get("media", {}).get("payload", "")`,
`None` for a falsy payload, else `base64.b64decode(payload)`.  A non-dict
where `.get` is called, or a payload on which `b64decode` raises, is an
exception in the Python; the embedding returns `none` there. -/
def extract_audio_from_media_event (event : Json) : Option (List Nat) :=
  match event with
  | .str _ => none
  | .obj fs =>
      match (dictGet fs "media".toList).getD (.obj []) with
      | .str _ => none
      | .obj fs2 =>
          match (dictGet fs2 "payload".toList).getD (.str []) with
          | .obj _ => none
          | .str payload =>
              if payload = [] then none
              else some (b64decode payload)

/-- The dict literal passed to `json.dumps` by `build_media_event`. -/
def mediaEventJson (sid : List Char) (audio : List Nat) : Json :=
  .obj [("event".toList, .str "media".toList),
        ("streamSid".toList, .str sid),
        ("media".toList, .obj [("payload".toList, .str (b64encode audio))])]

/-- `build_media_event`: `json.dumps` of the media event dict. -/
def build_media_event (sid : List Char) (audio : List Nat) : List Char :=
  dumps (mediaEventJson sid audio)

/-- The round trip of claim C5: build, parse, extract. -/
def roundTrip (sid : List Char) (audio : List Nat) : Option (List Nat) :=
  match parse_twilio_event (build_media_event sid audio) with
  | none => none
  | some ev => extract_audio_from_media_event ev

theorem b64encode_ne_nil : ∀ (audio : List Nat), audio ≠ [] → b64encode audio ≠ []
  | [], h => absurd rfl h
  | [_], _ => by simp [b64encode]
  | [_, _], _ => by simp [b64encode]
  | _ :: _ :: _ :: _, _ => by simp [b64encode]

/-- C5 counterexample: for empty audio the payload string is empty, the
extractor's falsy-payload guard returns `None`, and the round trip does
not return the original (empty) byte string. -/
theorem roundtrip_empty_audio_counterexample :
    roundTrip "MZ123".toList [] ≠ some [] := by decide

/-- C5 (amended): for every stream id and every nonempty byte string,
extracting the audio from the parse of `build_media_event` returns the
original bytes; for empty audio the extractor returns `None` because the
empty payload string is falsy. -/
theorem media_event_roundtrip (sid : List Char) (audio : List Nat)
    (hne : audio ≠ []) (hbytes : ∀ b ∈ audio, b < 256) :
    roundTrip sid audio = some audio := by
  show (match parse_twilio_event (build_media_event sid audio) with
        | none => none
        | some ev => extract_audio_from_media_event ev) = some audio
  rw [show parse_twilio_event (build_media_event sid audio)
        = some (mediaEventJson sid audio) from json_loads_dumps _]
  show extract_audio_from_media_event (mediaEventJson sid audio) = some audio
  have hpay : ¬b64encode audio = [] := b64encode_ne_nil audio hne
  show (if b64encode audio = [] then none else some (b64decode (b64encode audio)))
    = some audio
  rw [if_neg hpay, b64_roundtrip audio hbytes]

/-- C5 witness: the amended round trip evaluated at a concrete stream id
and payload. -/
theorem media_event_roundtrip_witness :
    (([127, 255, 1] : List Nat) ≠ [] ∧ ∀ b ∈ ([127, 255, 1] : List Nat), b < 256) ∧
    roundTrip "MZ123".toList [127, 255, 1] = some [127, 255, 1] :=
  ⟨⟨by decide, by decide⟩,
   media_event_roundtrip "MZ123".toList [127, 255, 1] (by decide) (by decide)⟩

end TwilioMedia

namespace StreamFilter

/-- `_STRIP_MARKERS[0]` as bytes. -/
def M1 : List Nat := "[Current message - respond to this]".toList.map Char.toNat

/-- `_STRIP_MARKERS[1]` as bytes. -/
def M2 : List Nat := "[Chat messages since your last reply - for context]".toList.map Char.toNat

/-- `_MAX_MARKER_LEN`. -/
def maxMarkerLen : Nat := max M1.length M2.length

/-- One pass of Python `bytes.replace(marker, b"")`: non-overlapping
occurrences removed left to right.  Fuelled so that the definition
computes; one unit of fuel is spent per byte of progress. -/
def rep (m : List Nat) : Nat → List Nat → List Nat
  | 0, s => s
  | _ + 1, [] => []
  | fuel + 1, c :: rest =>
      if m.isPrefixOf (c :: rest) then rep m fuel ((c :: rest).drop m.length)
      else c :: rep m fuel rest

/-- `s.replace(m, b"")`. -/
def pyReplace (s m : List Nat) : List Nat := rep m s.length s

/-- The marker-stripping loop body: both markers replaced, in
`_STRIP_MARKERS` order. -/
def stripMarkers (s : List Nat) : List Nat := pyReplace (pyReplace s M1) M2

/-- `_filtered_stream` over a finite list of chunks: per chunk, append to
the carry buffer, strip markers, emit all but the last
`_MAX_MARKER_LEN - 1` bytes when that is positive; at the end strip the
remainder and flush it if nonempty. -/
def filteredStream : List (List Nat) → List Nat → List (List Nat)
  | [], buf =>
      match stripMarkers buf with
      | [] => []
      | b => [b]
  | chunk :: rest, buf =>
      if maxMarkerLen - 1 < (stripMarkers (buf ++ chunk)).length then
        (stripMarkers (buf ++ chunk)).take
            ((stripMarkers (buf ++ chunk)).length - (maxMarkerLen - 1)) ::
          filteredStream rest
            ((stripMarkers (buf ++ chunk)).drop
              ((stripMarkers (buf ++ chunk)).length - (maxMarkerLen - 1)))
      else filteredStream rest (stripMarkers (buf ++ chunk))

/-- A decomposition of a byte string into literal pieces interleaved with
whole markers: `assemble [(x0, m1), (x1, m2), ...] t = x0 m1 x1 m2 ... t`. -/
def assemble : List (List Nat × List Nat) → List Nat → List Nat
  | [], t => t
  | (x, m) :: ps, t => x ++ m ++ assemble ps t

/-- The literal (marker-free) content of a decomposition — what the spec
says the filter should leave. -/
def cleanOf (ps : List (List Nat × List Nat)) (t : List Nat) : List Nat :=
  (ps.map Prod.fst).flatten ++ t

/-- C10 counterexample: splitting the bytes of `M2[:40] M1 M2[40:]` into
two chunks so that the `M1` occurrence spans the emit boundary.  Removing
`M1` re-creates an `M2` occurrence across bytes that are partly already
emitted, so the stream lets it through while the batch filter removes it. -/
def ceChunks : List (List Nat) := [M2.take 40 ++ M1.take 20, M1.drop 20 ++ M2.drop 40]


theorem rep_fuel_norm (m : List Nat) (hm : m ≠ []) :
    ∀ f s, s.length ≤ f → rep m f s = rep m s.length s := by
  intro f
  induction f using Nat.strong_induction_on with
  | _ f ih =>
    intro s hs
    match f, s with
    | 0, s =>
        have : s = [] := List.length_eq_zero.mp (Nat.le_zero.mp hs)
        subst this
        rfl
    | f + 1, [] => rfl
    | f + 1, c :: rest =>
        have hmlen : 1 ≤ m.length := by
          cases m with
          | nil => exact absurd rfl hm
          | cons a l => simp
        show rep m (f + 1) (c :: rest) = rep m (rest.length + 1) (c :: rest)
        rw [rep]
        rw [rep]
        by_cases hp : m.isPrefixOf (c :: rest) = true
        · rw [if_pos hp, if_pos hp]
          have hdl : ((c :: rest).drop m.length).length ≤ rest.length := by
            simp only [List.length_drop, List.length_cons]
            omega
          have h1 := ih f (by omega) ((c :: rest).drop m.length)
            (by simp at hs; omega)
          have h2 := ih rest.length (by simp at hs; omega) ((c :: rest).drop m.length) hdl
          rw [h1, h2]
        · rw [if_neg hp, if_neg hp]
          have h1 := ih f (by omega) rest (by simp at hs; omega)
          rw [h1]

theorem rep_fuel (m : List Nat) (hm : m ≠ []) (f g : Nat) (s : List Nat)
    (hf : s.length ≤ f) (hg : s.length ≤ g) : rep m f s = rep m g s := by
  rw [rep_fuel_norm m hm f s hf, rep_fuel_norm m hm g s hg]

theorem rep_no_occ (m : List Nat) (hm : m ≠ []) :
    ∀ f s, s.length ≤ f → ¬ m <:+: s → rep m f s = s := by
  intro f
  induction f with
  | zero => intro s _ _; rfl
  | succ f ih =>
      intro s hs hocc
      match s with
      | [] => rfl
      | c :: rest =>
          rw [rep]
          rw [if_neg ?hpre]
          case hpre =>
            intro hp
            exact hocc (List.isPrefixOf_iff_prefix.mp hp).isInfix
          rw [ih rest (by simp at hs; omega) ?hrest]
          case hrest =>
            intro hin
            exact hocc (hin.trans (List.suffix_cons c rest).isInfix)

theorem pyReplace_no_occ (m s : List Nat) (hm : m ≠ []) (hocc : ¬ m <:+: s) :
    pyReplace s m = s :=
  rep_no_occ m hm s.length s (Nat.le_refl _) hocc

theorem rep_clean_front (m : List Nat) (hm : m ≠ []) :
    ∀ (x r : List Nat) (f : Nat), (x ++ r).length ≤ f →
      (∀ i, i < x.length → ¬ m <+: (x ++ r).drop i) →
      rep m f (x ++ r) = x ++ rep m (f - x.length) r := by
  intro x
  induction x with
  | nil => intro r f _ _; simp
  | cons a x ih =>
      intro r f hf hno
      obtain ⟨f', rfl⟩ : ∃ f', f = f' + 1 := by
        refine ⟨f - 1, ?_⟩
        simp only [List.cons_append, List.length_cons] at hf
        omega
      show rep m (f' + 1) (a :: (x ++ r)) = (a :: x) ++ rep m (f' + 1 - (a :: x).length) r
      rw [rep]
      rw [if_neg ?hpre]
      case hpre =>
        intro hp
        exact hno 0 (by simp) (by simpa using List.isPrefixOf_iff_prefix.mp hp)
      rw [ih r f' (by simp at hf ⊢; omega) ?hshift]
      case hshift =>
        intro i hi hp
        exact hno (i + 1) (by simp; omega) (by simpa using hp)
      have hfe : f' + 1 - (a :: x).length = f' - x.length := by
        simp only [List.length_cons]
        omega
      rw [hfe]
      rfl

theorem rep_marker_head (m : List Nat) (hm : m ≠ []) (r : List Nat) (f : Nat)
    (hf : (m ++ r).length ≤ f) :
    rep m f (m ++ r) = rep m (f - 1) r := by
  obtain ⟨b, m', rfl⟩ : ∃ b m', m = b :: m' := by
    cases m with
    | nil => exact absurd rfl hm
    | cons b m' => exact ⟨b, m', rfl⟩
  obtain ⟨f', rfl⟩ : ∃ f', f = f' + 1 := by
    refine ⟨f - 1, ?_⟩
    simp at hf
    omega
  show rep (b :: m') (f' + 1) (b :: (m' ++ r)) = rep (b :: m') (f' + 1 - 1) r
  rw [rep]
  rw [if_pos ?hpre]
  case hpre =>
    exact List.isPrefixOf_iff_prefix.mpr
      (by simpa using List.prefix_append (b :: m') r)
  have hd : (b :: (m' ++ r)).drop (b :: m').length = r := by
    simpa using List.drop_left (b :: m') r
  rw [hd]
  rfl

theorem prefix_getElem (l1 l2 : List Nat) (h : l1 <+: l2) (j : Nat)
    (hj : j < l1.length) : l2[j]? = l1[j]? := by
  obtain ⟨d, rfl⟩ := h
  rw [List.getElem?_append_left hj]

theorem split_left {α : Type} (c R a B : List α) (h : c ++ R = a ++ B)
    (hl : c.length ≤ a.length) : a.take c.length = c ∧ R = a.drop c.length ++ B := by
  have hca : c <+: a :=
    List.prefix_of_prefix_length_le ⟨R, h⟩ (List.prefix_append a B) hl
  obtain ⟨d, rfl⟩ := hca
  refine ⟨List.take_left c d, ?_⟩
  have h2 : c ++ R = c ++ (d ++ B) := by simpa using h
  have hR : R = d ++ B := by
    have := congrArg (List.drop c.length) h2
    simpa [List.drop_left] using this
  rw [hR, List.drop_left]

theorem split_right {α : Type} (c R a B : List α) (h : c ++ R = a ++ B)
    (hl : a.length ≤ c.length) : c = a ++ c.drop a.length ∧ c.drop a.length ++ R = B := by
  have hac : a <+: c := by
    refine List.prefix_of_prefix_length_le ?_ ⟨R, rfl⟩ hl
    rw [h]
    exact List.prefix_append a B
  obtain ⟨e, rfl⟩ := hac
  have hd : (a ++ e).drop a.length = e := List.drop_left a e
  refine ⟨by rw [hd], ?_⟩
  rw [hd]
  have h2 : a ++ (e ++ R) = a ++ B := by simpa using h
  have := congrArg (List.drop a.length) h2
  simpa [List.drop_left] using this

theorem head_only_91 (m : List Nat) (h : (m.drop 1).all (fun a => decide (a ≠ 91)) = true) :
    ∀ j, 0 < j → m[j]? ≠ some 91 := by
  intro j hj he
  have hjs : (m.drop 1)[j - 1]? = some 91 := by
    rw [List.getElem?_drop]
    have : 1 + (j - 1) = j := by omega
    rw [this, he]
  have hmem : (91 : Nat) ∈ m.drop 1 := List.getElem?_mem hjs
  have := List.all_eq_true.mp h 91 hmem
  simp at this


theorem M1_ne_nil : M1 ≠ [] := by decide

theorem M2_ne_nil : M2 ≠ [] := by decide

theorem not_infix_M1_M2 : ¬ M1 <:+: M2 := by decide

theorem not_infix_M2_M1 : ¬ M2 <:+: M1 := by decide

/-- Either of the two strip markers. -/
def isMarker (m : List Nat) : Prop := m = M1 ∨ m = M2

theorem isMarker_ne_nil {m : List Nat} (h : isMarker m) : m ≠ [] := by
  cases h with
  | inl h => rw [h]; exact M1_ne_nil
  | inr h => rw [h]; exact M2_ne_nil

theorem isMarker_pos {m : List Nat} (h : isMarker m) : 0 < m.length := by
  cases h with
  | inl h => rw [h]; decide
  | inr h => rw [h]; decide

theorem isMarker_len {m : List Nat} (h : isMarker m) : m.length ≤ 51 := by
  cases h with
  | inl h => rw [h]; decide
  | inr h => rw [h]; decide

theorem isMarker_head {m : List Nat} (h : isMarker m) : m[0]? = some 91 := by
  cases h with
  | inl h => rw [h]; decide
  | inr h => rw [h]; decide

theorem isMarker_tail {m : List Nat} (h : isMarker m) :
    ∀ j, 0 < j → m[j]? ≠ some 91 := by
  cases h with
  | inl h => rw [h]; exact head_only_91 M1 (by decide)
  | inr h => rw [h]; exact head_only_91 M2 (by decide)

theorem isMarker_prefix_eq {a b : List Nat} (ha : isMarker a) (hb : isMarker b)
    (h : a <+: b) : a = b := by
  cases ha with
  | inl ha =>
      cases hb with
      | inl hb => rw [ha, hb]
      | inr hb => rw [ha, hb] at h; exact absurd h.isInfix not_infix_M1_M2
  | inr ha =>
      cases hb with
      | inl hb => rw [ha, hb] at h; exact absurd h.isInfix not_infix_M2_M1
      | inr hb => rw [ha, hb]

/-- A proper prefix of a marker appended to a marker-free string creates no
marker occurrence: markers start with the only `[` byte they contain, so an
occurrence would need a second `[`. -/
theorem no_occ_append_pend (u : List Nat) (hu : isMarker u) (A q : List Nat)
    (hA : ¬ u <:+: A)
    (hq : q = [] ∨ ∃ mp, isMarker mp ∧ q <+: mp ∧ q ≠ mp) :
    ¬ u <:+: (A ++ q) := by
  intro hocc
  cases hq with
  | inl hq => rw [hq, List.append_nil] at hocc; exact hA hocc
  | inr hq =>
    obtain ⟨mp, hmp, hqp, hqne⟩ := hq
    obtain ⟨s, t2, hst⟩ := hocc
    rw [List.append_assoc] at hst
    by_cases h1 : s.length + u.length ≤ A.length
    · have hsp := split_left s (u ++ t2) A q hst (by omega)
      have hup := split_left u t2 (A.drop s.length) q hsp.2 (by simp; omega)
      have : u <+: A.drop s.length := by
        rw [← hup.1]
        exact List.take_prefix _ _
      exact hA (this.isInfix.trans (List.drop_suffix s.length A).isInfix)
    · by_cases h2 : s.length < A.length
      · have hupre : u <+: (A ++ q).drop s.length :=
          ⟨t2, by rw [← hst, List.drop_left]⟩
        have hj : A.length - s.length < u.length := by omega
        have e1 : ((A ++ q).drop s.length)[A.length - s.length]? = u[A.length - s.length]? :=
          prefix_getElem _ _ hupre _ hj
        have e2 : ((A ++ q).drop s.length)[A.length - s.length]? = (A ++ q)[A.length]? := by
          rw [List.getElem?_drop]
          congr 1
          omega
        have e3 : (A ++ q)[A.length]? = q[0]? := by
          rw [List.getElem?_append_right (Nat.le_refl _)]
          simp
        have hqz : 0 < q.length := by
          have hlen := congrArg List.length hst
          simp only [List.length_append] at hlen
          omega
        have hq0 : q[0]? = some 91 := by
          have := prefix_getElem q mp hqp 0 hqz
          rw [← this]
          exact isMarker_head hmp
        have hu91 : u[A.length - s.length]? = some 91 := by
          rw [← e1, e2, e3, hq0]
        have hpos : 0 < A.length - s.length := by omega
        exact isMarker_tail hu (A.length - s.length) hpos hu91
      · have hsp := split_right s (u ++ t2) A q hst (by omega)
        have hinq : u <:+: q := by
          refine ⟨s.drop A.length, t2, ?_⟩
          rw [List.append_assoc]
          exact hsp.2
        have hqlt : q.length < mp.length := by
          have hle := hqp.length_le
          rcases Nat.lt_or_ge q.length mp.length with h | h
          · exact h
          · exact absurd (List.IsPrefix.eq_of_length hqp (by omega)) hqne
        cases hu with
        | inl hu1 =>
            have : u <:+: mp := hinq.trans hqp.isInfix
            cases hmp with
            | inl hmp1 =>
                rw [hu1, hmp1] at this
                have := this.length_le
                have h35 : q.length < M1.length := by rw [← hmp1]; exact hqlt
                have hq35 := hinq.length_le
                rw [hu1] at hq35
                omega
            | inr hmp2 =>
                rw [hu1, hmp2] at this
                exact not_infix_M1_M2 this
        | inr hu2 =>
            have hul := hinq.length_le
            have hml := isMarker_len hmp
            rw [hu2] at hul
            have : (51 : Nat) ≤ q.length := by
              have : M2.length = 51 := by decide
              omega
            omega

theorem strip_id (X : List Nat) (h1 : ¬ M1 <:+: X) (h2 : ¬ M2 <:+: X) :
    stripMarkers X = X := by
  unfold stripMarkers
  rw [pyReplace_no_occ M1 X M1_ne_nil h1, pyReplace_no_occ M2 X M2_ne_nil h2]

theorem cleanOf_nil (t : List Nat) : cleanOf [] t = t := by
  simp [cleanOf]

theorem cleanOf_cons (x m : List Nat) (ps : List (List Nat × List Nat)) (t : List Nat) :
    cleanOf ((x, m) :: ps) t = x ++ cleanOf ps t := by
  simp [cleanOf]

/-- Absorb a byte string into the front of a decomposition. -/
def absorb (w : List Nat) : List (List Nat × List Nat) → List Nat →
    List (List Nat × List Nat) × List Nat
  | [], t => ([], w ++ t)
  | (x, m) :: ps, t => ((w ++ x, m) :: ps, t)

theorem absorb_assemble (w : List Nat) (ps : List (List Nat × List Nat)) (t : List Nat) :
    assemble (absorb w ps t).1 (absorb w ps t).2 = w ++ assemble ps t := by
  cases ps with
  | nil => rfl
  | cons p ps =>
      obtain ⟨x, m⟩ := p
      simp [absorb, assemble]

theorem absorb_clean (w : List Nat) (ps : List (List Nat × List Nat)) (t : List Nat) :
    cleanOf (absorb w ps t).1 (absorb w ps t).2 = w ++ cleanOf ps t := by
  cases ps with
  | nil => simp [absorb, cleanOf]
  | cons p ps =>
      obtain ⟨x, m⟩ := p
      simp [absorb, cleanOf]

theorem absorb_markers (w : List Nat) (ps : List (List Nat × List Nat)) (t : List Nat)
    (P : List Nat → Prop) (h : ∀ p ∈ ps, P p.2) :
    ∀ p ∈ (absorb w ps t).1, P p.2 := by
  cases ps with
  | nil => simp [absorb]
  | cons p0 ps =>
      obtain ⟨x, m⟩ := p0
      intro p hp
      simp [absorb] at hp
      cases hp with
      | inl hp => rw [hp]; exact h (x, m) (by simp)
      | inr hp => exact h p (by simp [hp])


/-- One `replace(u, b"")` pass on a decomposed string removes exactly the
`u` markers: the output decomposes again with the other markers kept and
the literal content unchanged. -/
theorem passRep (u : List Nat) (hu : isMarker u) :
    ∀ (ps : List (List Nat × List Nat)) (t : List Nat),
      (∀ p ∈ ps, isMarker p.2) →
      ¬ M1 <:+: cleanOf ps t → ¬ M2 <:+: cleanOf ps t →
      ∃ ps1 t1, pyReplace (assemble ps t) u = assemble ps1 t1 ∧
        cleanOf ps1 t1 = cleanOf ps t ∧
        (∀ p ∈ ps1, isMarker p.2 ∧ p.2 ≠ u ∧ ∃ q ∈ ps, q.2 = p.2) := by
  intro ps
  induction ps with
  | nil =>
      intro t _ h1 h2
      have hcu : ¬ u <:+: t := by
        cases hu with
        | inl hu1 => rw [hu1]; simpa [cleanOf] using h1
        | inr hu2 => rw [hu2]; simpa [cleanOf] using h2
      exact ⟨[], t, pyReplace_no_occ u t (isMarker_ne_nil hu) hcu, rfl, by simp⟩
  | cons p ps ih =>
      obtain ⟨x, m⟩ := p
      intro t hms h1 h2
      have hmk : isMarker m := hms (x, m) (by simp)
      have htl : ∀ p ∈ ps, isMarker p.2 := fun p hp => hms p (by simp [hp])
      have hsub : cleanOf ps t <:+: cleanOf ((x, m) :: ps) t := by
        rw [cleanOf_cons]
        exact (List.suffix_append x (cleanOf ps t)).isInfix
      have h1' : ¬ M1 <:+: cleanOf ps t := fun h => h1 (h.trans hsub)
      have h2' : ¬ M2 <:+: cleanOf ps t := fun h => h2 (h.trans hsub)
      obtain ⟨ps1, t1, e, hc, hq⟩ := ih t htl h1' h2'
      have hclean_u : ¬ u <:+: cleanOf ((x, m) :: ps) t := by
        cases hu with
        | inl hu1 => rw [hu1]; exact h1
        | inr hu2 => rw [hu2]; exact h2
      have hxpre : x <+: cleanOf ((x, m) :: ps) t := by
        rw [cleanOf_cons]
        exact List.prefix_append x (cleanOf ps t)
      have hno : ∀ i, i < x.length →
          ¬ u <+: ((x ++ (m ++ assemble ps t)).drop i) := by
        intro i hi hp
        by_cases hfit : i + u.length ≤ x.length
        · have hd : (x ++ (m ++ assemble ps t)).drop i
              = x.drop i ++ (m ++ assemble ps t) := by
            rw [List.drop_append_eq_append_drop]
            have : i - x.length = 0 := by omega
            rw [this, List.drop_zero]
          rw [hd] at hp
          have hux : u <+: x.drop i := by
            refine List.prefix_of_prefix_length_le hp (List.prefix_append _ _) ?_
            simp
            omega
          exact hclean_u
            ((hux.isInfix.trans (List.drop_suffix i x).isInfix).trans hxpre.isInfix)
        · have hxi : x.length - i < u.length := by omega
          have e1 := prefix_getElem _ _ hp (x.length - i) hxi
          have e2 : ((x ++ (m ++ assemble ps t)).drop i)[x.length - i]?
              = (x ++ (m ++ assemble ps t))[x.length]? := by
            rw [List.getElem?_drop]
            congr 1
            omega
          have e3 : (x ++ (m ++ assemble ps t))[x.length]?
              = (m ++ assemble ps t)[0]? := by
            rw [List.getElem?_append_right (Nat.le_refl _)]
            simp
          have e4 : (m ++ assemble ps t)[0]? = m[0]? :=
            List.getElem?_append_left (isMarker_pos hmk)
          have hu91 : u[x.length - i]? = some 91 := by
            rw [← e1, e2, e3, e4]
            exact isMarker_head hmk
          have hpos : 0 < x.length - i := by omega
          exact isMarker_tail hu (x.length - i) hpos hu91
      have hstep : pyReplace (assemble ((x, m) :: ps) t) u
          = x ++ rep u ((m ++ assemble ps t).length) (m ++ assemble ps t) := by
        show rep u (assemble ((x, m) :: ps) t).length (assemble ((x, m) :: ps) t)
          = x ++ rep u ((m ++ assemble ps t).length) (m ++ assemble ps t)
        have ha : assemble ((x, m) :: ps) t = x ++ (m ++ assemble ps t) := by
          simp [assemble]
        rw [ha, rep_clean_front u (isMarker_ne_nil hu) x (m ++ assemble ps t) _
          (Nat.le_refl _) hno]
        congr 2
        simp
      by_cases hmu : m = u
      · subst hmu
        have hrm : rep m ((m ++ assemble ps t).length) (m ++ assemble ps t)
            = pyReplace (assemble ps t) m := by
          rw [rep_marker_head m (isMarker_ne_nil hmk) (assemble ps t) _ (Nat.le_refl _)]
          exact rep_fuel m (isMarker_ne_nil hmk) _ _ _
            (by simp; have := isMarker_pos hmk; omega) (Nat.le_refl _)
        refine ⟨(absorb x ps1 t1).1, (absorb x ps1 t1).2, ?_, ?_, ?_⟩
        · rw [hstep, hrm, e, absorb_assemble]
        · rw [absorb_clean, hc, cleanOf_cons]
        · exact absorb_markers x ps1 t1
            (fun v => isMarker v ∧ v ≠ m ∧ ∃ q ∈ (x, m) :: ps, q.2 = v)
            (fun p hp => ⟨(hq p hp).1, (hq p hp).2.1,
              by obtain ⟨qq, hqq, hqe⟩ := (hq p hp).2.2; exact ⟨qq, by simp [hqq], hqe⟩⟩)
      · have hnom : ∀ j, j < m.length →
            ¬ u <+: ((m ++ assemble ps t).drop j) := by
          intro j hj hp
          by_cases hj0 : j = 0
          · subst hj0
            rw [List.drop_zero] at hp
            by_cases hlen : u.length ≤ m.length
            · have hum : u <+: m :=
                List.prefix_of_prefix_length_le hp (List.prefix_append _ _) hlen
              exact hmu (isMarker_prefix_eq hu hmk hum).symm
            · have hmu2 : m <+: u :=
                List.prefix_of_prefix_length_le (List.prefix_append _ _) hp (by omega)
              exact hmu (isMarker_prefix_eq hmk hu hmu2)
          · have e1 := prefix_getElem _ _ hp 0 (isMarker_pos hu)
            have e2 : ((m ++ assemble ps t).drop j)[0]?
                = (m ++ assemble ps t)[j]? := by
              rw [List.getElem?_drop]
              simp
            have e3 : (m ++ assemble ps t)[j]? = m[j]? :=
              List.getElem?_append_left hj
            have hm91 : m[j]? = some 91 := by
              rw [← e3, ← e2, e1]
              exact isMarker_head hu
            exact isMarker_tail hmk j (by omega) hm91
        have hrm : rep u ((m ++ assemble ps t).length) (m ++ assemble ps t)
            = m ++ pyReplace (assemble ps t) u := by
          rw [rep_clean_front u (isMarker_ne_nil hu) m (assemble ps t) _
            (Nat.le_refl _) hnom]
          congr 2
          simp
        refine ⟨(x, m) :: ps1, t1, ?_, ?_, ?_⟩
        · rw [hstep, hrm, e]
          simp [assemble]
        · rw [cleanOf_cons, cleanOf_cons, hc]
        · intro p hp
          simp at hp
          cases hp with
          | inl hp =>
              rw [hp]
              exact ⟨hmk, hmu, ⟨(x, m), by simp⟩⟩
          | inr hp =>
              refine ⟨(hq p hp).1, (hq p hp).2.1, ?_⟩
              obtain ⟨qq, hqq, hqe⟩ := (hq p hp).2.2
              exact ⟨qq, by simp [hqq], hqe⟩

/-- The batch filter on a decomposed string: both replace passes remove
exactly the markers, leaving the literal content. -/
theorem batchStrip (ps : List (List Nat × List Nat)) (t : List Nat)
    (hm : ∀ p ∈ ps, isMarker p.2)
    (h1 : ¬ M1 <:+: cleanOf ps t) (h2 : ¬ M2 <:+: cleanOf ps t) :
    stripMarkers (assemble ps t) = cleanOf ps t := by
  obtain ⟨ps1, t1, e1, hc1, hq1⟩ := passRep M1 (Or.inl rfl) ps t hm h1 h2
  obtain ⟨ps2, t2, e2, hc2, hq2⟩ := passRep M2 (Or.inr rfl) ps1 t1
    (fun p hp => (hq1 p hp).1) (by rw [hc1]; exact h1) (by rw [hc1]; exact h2)
  have hps2 : ps2 = [] := by
    cases hcc : ps2 with
    | nil => rfl
    | cons p ps' =>
        exfalso
        have h := hq2 p (by rw [hcc]; simp)
        obtain ⟨qq, hqq, hqe⟩ := h.2.2
        have hq1m := hq1 qq hqq
        cases h.1 with
        | inl hm1 => exact hq1m.2.1 (by rw [hqe]; exact hm1)
        | inr hm2 => exact h.2.1 hm2
  subst hps2
  show pyReplace (pyReplace (assemble ps t) M1) M2 = cleanOf ps t
  rw [e1, e2]
  show t2 = cleanOf ps t
  rw [← hc1, ← hc2, cleanOf_nil]


theorem assemble_eq_nil {ps : List (List Nat × List Nat)} {t : List Nat}
    (hm : ∀ p ∈ ps, isMarker p.2) (h : assemble ps t = []) : ps = [] ∧ t = [] := by
  cases ps with
  | nil => exact ⟨rfl, h⟩
  | cons p ps =>
      obtain ⟨x, m⟩ := p
      exfalso
      have h' : x ++ (m ++ assemble ps t) = [] := by simpa [assemble] using h
      have := List.append_eq_nil.mp h'
      have := List.append_eq_nil.mp this.2
      exact isMarker_ne_nil (hm (x, m) (by simp)) this.1

/-- Cutting a decomposed string at a chunk boundary: the consumed part is
itself a decomposition ending in a literal piece plus at most a proper
marker prefix, and the remainder starts with the matching marker suffix. -/
theorem cutChunk : ∀ (ps : List (List Nat × List Nat)) (t c R : List Nat),
    c ++ R = assemble ps t →
    (∀ p ∈ ps, isMarker p.2) →
    ∃ psA xpart q2 mr2 ps' t',
      c = assemble psA (xpart ++ q2) ∧
      R = mr2 ++ assemble ps' t' ∧
      cleanOf psA (xpart ++ cleanOf ps' t') = cleanOf ps t ∧
      ((q2 = [] ∧ mr2 = []) ∨
        ∃ m2, isMarker m2 ∧ q2 ++ mr2 = m2 ∧ q2 ≠ [] ∧ mr2 ≠ []) ∧
      (∀ p ∈ psA, isMarker p.2) ∧
      (∀ p ∈ ps', isMarker p.2) := by
  intro ps
  induction ps with
  | nil =>
      intro t c R h _
      refine ⟨[], c, [], [], [], R, by simp [assemble], by simp [assemble], ?_, ?_, ?_, ?_⟩
      · simp [cleanOf]
        exact h
      · exact Or.inl ⟨rfl, rfl⟩
      · simp
      · simp
  | cons p ps ih =>
      obtain ⟨x, m⟩ := p
      intro t c R h hms
      have htl : ∀ p ∈ ps, isMarker p.2 := fun p hp => hms p (by simp [hp])
      have hmk : isMarker m := hms (x, m) (by simp)
      have h' : c ++ R = x ++ (m ++ assemble ps t) := by
        rw [h]
        simp [assemble]
      by_cases h1 : c.length ≤ x.length
      · obtain ⟨hx, hR⟩ := split_left c R x (m ++ assemble ps t) h' h1
        refine ⟨[], c, [], [], (x.drop c.length, m) :: ps, t,
          by simp [assemble], ?_, ?_, Or.inl ⟨rfl, rfl⟩, by simp, ?_⟩
        · rw [hR]
          simp [assemble]
        · rw [cleanOf_nil, cleanOf_cons, cleanOf_cons, ← List.append_assoc]
          have hpre : c <+: x := hx ▸ List.take_prefix c.length x
          obtain ⟨d, hd⟩ := hpre
          have : c ++ x.drop c.length = x := by
            rw [← hd, List.drop_left]
          rw [this]
        · intro p hp
          simp at hp
          cases hp with
          | inl hp => rw [hp]; exact hmk
          | inr hp => exact htl p (by simpa using hp)
      · by_cases h2 : c.length < x.length + m.length
        · obtain ⟨hc1, hc2⟩ := split_right c R x (m ++ assemble ps t) h' (by omega)
          have hqlen : (c.drop x.length).length = c.length - x.length := by simp
          obtain ⟨hm1, hmR⟩ := split_left (c.drop x.length) R m (assemble ps t) hc2
            (by omega)
          refine ⟨[], x, c.drop x.length, m.drop (c.drop x.length).length, ps, t,
            by simpa [assemble] using hc1, by rw [hmR], ?_, ?_, by simp, htl⟩
          · rw [cleanOf_nil, cleanOf_cons]
          · refine Or.inr ⟨m, hmk, ?_, ?_, ?_⟩
            · have hpre : c.drop x.length <+: m := hm1 ▸ List.take_prefix _ m
              obtain ⟨d, hd⟩ := hpre
              rw [← hd, List.drop_left]
            · intro he
              have := congrArg List.length he
              simp at this
              omega
            · intro he
              have := congrArg List.length he
              simp at this
              omega
        · have h'' : c ++ R = (x ++ m) ++ assemble ps t := by
            rw [h']
            simp
          obtain ⟨hc1, hc2⟩ := split_right c R (x ++ m) (assemble ps t) h''
            (by simp; omega)
          obtain ⟨psA, xpart, q2, mr2, ps', t', e1, e2, e3, e4, e5, e6⟩ :=
            ih t (c.drop (x ++ m).length) R hc2 htl
          refine ⟨(x, m) :: psA, xpart, q2, mr2, ps', t', ?_, e2, ?_, e4, ?_, e6⟩
          · rw [hc1, e1]
            simp [assemble]
          · rw [cleanOf_cons, e3, cleanOf_cons]
          · intro p hp
            simp at hp
            cases hp with
            | inl hp => rw [hp]; exact hmk
            | inr hp => exact e5 p (by simpa using hp)


/-- The carry buffer's classification: either no marker is pending, or the
pending marker splits strictly across the buffer boundary. -/
def Pend (q mr : List Nat) : Prop :=
  (q = [] ∧ mr = []) ∨ ∃ mk, isMarker mk ∧ q ++ mr = mk ∧ q ≠ [] ∧ mr ≠ []

theorem Pend_q_len {q mr : List Nat} (h : Pend q mr) : q.length ≤ 50 := by
  cases h with
  | inl h => rw [h.1]; simp
  | inr h =>
      obtain ⟨mk, hmk, he, _, hmr⟩ := h
      have h1 := isMarker_len hmk
      have h2 := congrArg List.length he
      simp at h2
      have h3 : 0 < mr.length := List.length_pos.mpr hmr
      omega

theorem Pend_partialMk {q mr : List Nat} (h : Pend q mr) :
    q = [] ∨ ∃ mp, isMarker mp ∧ q <+: mp ∧ q ≠ mp := by
  cases h with
  | inl h => exact Or.inl h.1
  | inr h =>
      obtain ⟨mk, hmk, he, hq, hmr⟩ := h
      refine Or.inr ⟨mk, hmk, ⟨mr, he⟩, ?_⟩
      intro hqe
      subst hqe
      have := congrArg List.length he
      simp at this
      exact hmr this

theorem hold50 : maxMarkerLen - 1 = 50 := by decide

/-- The emit step of `_filtered_stream` preserves the stream invariant:
whatever is not emitted is carried, so the total output is unchanged. -/
theorem emitStep (rest : List (List Nat))
    (hIH : ∀ (w q mr : List Nat) (ps : List (List Nat × List Nat)) (t : List Nat),
      (∀ p ∈ ps, isMarker p.2) →
      ¬ M1 <:+: (w ++ cleanOf ps t) → ¬ M2 <:+: (w ++ cleanOf ps t) →
      rest.flatten = mr ++ assemble ps t → Pend q mr →
      (filteredStream rest (w ++ q)).flatten = w ++ cleanOf ps t)
    (w2 q2 mr2 : List Nat) (ps' : List (List Nat × List Nat)) (t' : List Nat)
    (hm' : ∀ p ∈ ps', isMarker p.2)
    (h1' : ¬ M1 <:+: (w2 ++ cleanOf ps' t'))
    (h2' : ¬ M2 <:+: (w2 ++ cleanOf ps' t'))
    (hdec' : rest.flatten = mr2 ++ assemble ps' t')
    (hpend' : Pend q2 mr2) :
    (if maxMarkerLen - 1 < (w2 ++ q2).length then
        (w2 ++ q2).take ((w2 ++ q2).length - (maxMarkerLen - 1)) ::
          filteredStream rest ((w2 ++ q2).drop ((w2 ++ q2).length - (maxMarkerLen - 1)))
      else filteredStream rest (w2 ++ q2)).flatten = w2 ++ cleanOf ps' t' := by
  have hq2l : q2.length ≤ 50 := Pend_q_len hpend'
  rw [hold50]
  by_cases hcond : 50 < (w2 ++ q2).length
  · rw [if_pos hcond]
    have hk : (w2 ++ q2).length - 50 ≤ w2.length := by
      simp only [List.length_append] at hcond ⊢
      omega
    have hz : (w2 ++ q2).length - 50 - w2.length = 0 := by omega
    have htake : (w2 ++ q2).take ((w2 ++ q2).length - 50)
        = w2.take ((w2 ++ q2).length - 50) := by
      rw [List.take_append_eq_append_take, hz]
      simp
    have hdrop : (w2 ++ q2).drop ((w2 ++ q2).length - 50)
        = w2.drop ((w2 ++ q2).length - 50) ++ q2 := by
      rw [List.drop_append_eq_append_drop, hz]
      simp
    rw [htake, hdrop]
    have hsuf : ∀ X : List Nat,
        (w2.drop ((w2 ++ q2).length - 50) ++ X) <:+ (w2 ++ X) := by
      intro X
      exact ⟨w2.take ((w2 ++ q2).length - 50),
        by rw [← List.append_assoc, List.take_append_drop]⟩
    have h1'' : ¬ M1 <:+: (w2.drop ((w2 ++ q2).length - 50) ++ cleanOf ps' t') :=
      fun hin => h1' (hin.trans (hsuf (cleanOf ps' t')).isInfix)
    have h2'' : ¬ M2 <:+: (w2.drop ((w2 ++ q2).length - 50) ++ cleanOf ps' t') :=
      fun hin => h2' (hin.trans (hsuf (cleanOf ps' t')).isInfix)
    have hrec := hIH (w2.drop ((w2 ++ q2).length - 50)) q2 mr2 ps' t'
      hm' h1'' h2'' hdec' hpend'
    simp only [List.flatten_cons]
    rw [hrec, ← List.append_assoc, List.take_append_drop]
  · rw [if_neg hcond]
    exact hIH w2 q2 mr2 ps' t' hm' h1' h2' hdec' hpend'

/-- The main stream invariant: with a carry buffer made of pending literal
output `w` and a partial marker `q`, and remaining input completing the
pending marker and then decomposing into literals and whole markers, the
stream emits exactly `w` followed by the literal content. -/
theorem streamMain : ∀ (chunks : List (List Nat)) (w q mr : List Nat)
    (ps : List (List Nat × List Nat)) (t : List Nat),
    (∀ p ∈ ps, isMarker p.2) →
    ¬ M1 <:+: (w ++ cleanOf ps t) → ¬ M2 <:+: (w ++ cleanOf ps t) →
    chunks.flatten = mr ++ assemble ps t → Pend q mr →
    (filteredStream chunks (w ++ q)).flatten = w ++ cleanOf ps t := by
  intro chunks
  induction chunks with
  | nil =>
      intro w q mr ps t hm h1 h2 hdec hpend
      simp only [List.flatten_nil] at hdec
      have hnil := List.append_eq_nil.mp hdec.symm
      obtain ⟨hps, ht⟩ := assemble_eq_nil hm hnil.2
      subst hps
      subst ht
      have hq : q = [] := by
        cases hpend with
        | inl h => exact h.1
        | inr h =>
            obtain ⟨mk, _, _, _, hmr⟩ := h
            exact absurd hnil.1 hmr
      subst hq
      have hw1 : ¬ M1 <:+: w := by simpa [cleanOf] using h1
      have hw2 : ¬ M2 <:+: w := by simpa [cleanOf] using h2
      rw [List.append_nil, cleanOf_nil, List.append_nil, filteredStream,
        strip_id w hw1 hw2]
      cases w with
      | nil => rfl
      | cons a w' => simp
  | cons c rest ih =>
      intro w q mr ps t hm h1 h2 hdec hpend
      rw [List.flatten_cons] at hdec
      by_cases hsplit : c.length < mr.length
      · have hpend2 : ∃ mk, isMarker mk ∧ q ++ mr = mk ∧ q ≠ [] ∧ mr ≠ [] := by
          cases hpend with
          | inl h =>
              exfalso
              rw [h.2] at hsplit
              simp at hsplit
          | inr h => exact h
        obtain ⟨mk, hmk, hqmr, hqne, hmrne⟩ := hpend2
        obtain ⟨hc1, hc2⟩ := split_left c rest.flatten mr (assemble ps t) hdec
          (Nat.le_of_lt hsplit)
        have hcp : c <+: mr := hc1 ▸ List.take_prefix c.length mr
        obtain ⟨d, hd⟩ := hcp
        have hdd : mr.drop c.length = d := by
          rw [← hd, List.drop_left]
        have hq' : Pend (q ++ c) (mr.drop c.length) := by
          refine Or.inr ⟨mk, hmk, ?_, ?_, ?_⟩
          · rw [List.append_assoc, hdd, hd]
            exact hqmr
          · intro he
            exact hqne (List.append_eq_nil.mp he).1
          · intro he
            have := congrArg List.length he
            simp at this
            omega
        have hstrip : stripMarkers ((w ++ q) ++ c) = w ++ (q ++ c) := by
          rw [List.append_assoc]
          refine strip_id _ ?_ ?_
          · refine no_occ_append_pend M1 (Or.inl rfl) w (q ++ c) ?_ (Pend_partialMk hq')
            exact fun hin => h1 (hin.trans (List.prefix_append w _).isInfix)
          · refine no_occ_append_pend M2 (Or.inr rfl) w (q ++ c) ?_ (Pend_partialMk hq')
            exact fun hin => h2 (hin.trans (List.prefix_append w _).isInfix)
        rw [filteredStream, hstrip]
        exact emitStep rest ih w (q ++ c) (mr.drop c.length) ps t hm h1 h2 hc2 hq'
      · obtain ⟨hc1, hc2⟩ := split_right c rest.flatten mr (assemble ps t) hdec
          (by omega)
        obtain ⟨psA, xpart, q2, mr2, ps', t', e1, e2, e3, e4, e5, e6⟩ :=
          cutChunk ps t (c.drop mr.length) rest.flatten hc2 hm
        have hkey : ∀ X : List Nat, w ++ cleanOf psA (xpart ++ X)
            = (w ++ ((psA.map Prod.fst).flatten ++ xpart)) ++ X := by
          intro X
          simp [cleanOf, List.append_assoc]
        have hbook : w ++ cleanOf ps t
            = (w ++ ((psA.map Prod.fst).flatten ++ xpart)) ++ cleanOf ps' t' := by
          rw [← e3]
          exact hkey _
        have hfree1 : ¬ M1 <:+:
            ((w ++ ((psA.map Prod.fst).flatten ++ xpart)) ++ q2) := by
          refine no_occ_append_pend M1 (Or.inl rfl) _ q2 ?_ (Pend_partialMk e4)
          intro hin
          exact h1 (by
            rw [hbook]
            exact hin.trans (List.prefix_append _ _).isInfix)
        have hfree2 : ¬ M2 <:+:
            ((w ++ ((psA.map Prod.fst).flatten ++ xpart)) ++ q2) := by
          refine no_occ_append_pend M2 (Or.inr rfl) _ q2 ?_ (Pend_partialMk e4)
          intro hin
          exact h2 (by
            rw [hbook]
            exact hin.trans (List.prefix_append _ _).isInfix)
        have hstrip : stripMarkers ((w ++ q) ++ c)
            = (w ++ ((psA.map Prod.fst).flatten ++ xpart)) ++ q2 := by
          cases hpend with
          | inl hpl =>
              obtain ⟨hq0, hmr0⟩ := hpl
              subst hq0
              have hc' : c.drop mr.length = c := by
                rw [hmr0]
                simp
              rw [List.append_nil, ← hc', e1, ← absorb_assemble w psA (xpart ++ q2)]
              rw [batchStrip _ _ (absorb_markers w psA (xpart ++ q2) isMarker e5)
                ?hf1 ?hf2]
              case hf1 =>
                rw [absorb_clean, hkey q2]
                exact hfree1
              case hf2 =>
                rw [absorb_clean, hkey q2]
                exact hfree2
              rw [absorb_clean]
              exact hkey q2
          | inr hpr =>
              obtain ⟨mk, hmk, hqmr, hqne2, hmrne2⟩ := hpr
              have hass : (w ++ q) ++ c = assemble ((w, mk) :: psA) (xpart ++ q2) := by
                rw [hc1, e1]
                have hun : assemble ((w, mk) :: psA) (xpart ++ q2)
                    = w ++ (mk ++ assemble psA (xpart ++ q2)) := by
                  simp [assemble]
                rw [hun, ← hqmr]
                simp [List.append_assoc]
              rw [hass]
              rw [batchStrip ((w, mk) :: psA) (xpart ++ q2) ?hmks ?hg1 ?hg2]
              case hmks =>
                intro p hp
                simp at hp
                cases hp with
                | inl hp => rw [hp]; exact hmk
                | inr hp => exact e5 p (by simpa using hp)
              case hg1 =>
                rw [cleanOf_cons, hkey q2]
                exact hfree1
              case hg2 =>
                rw [cleanOf_cons, hkey q2]
                exact hfree2
              rw [cleanOf_cons]
              exact hkey q2
        rw [filteredStream, hstrip, hbook]
        exact emitStep rest ih (w ++ ((psA.map Prod.fst).flatten ++ xpart)) q2 mr2
          ps' t' e6
          (by rw [← hbook]; exact h1)
          (by rw [← hbook]; exact h2)
          e2 e4


/-- C10 counterexample: for the two-chunk split of `M2[:40] M1 M2[40:]`,
the concatenated stream output differs from the concatenation of the
input with every marker occurrence removed (the stream lets the re-created
`M2` occurrence through because its first bytes were already emitted,
while the batch replace removes it). -/
theorem filtered_stream_chunking_counterexample :
    (filteredStream ceChunks []).flatten ≠ stripMarkers ceChunks.flatten := by
  decide

/-- C10 (amended): for every finite sequence of input byte chunks whose
concatenation decomposes into literal pieces interleaved with whole
markers, where the literal content contains no marker occurrence (so
removal cannot re-create a marker), the concatenation of the chunks
yielded by `_filtered_stream` equals the concatenation of the input
chunks with every marker occurrence removed — the literal content —
regardless of how the bytes are split across chunk boundaries. -/
theorem filtered_stream_strips_decomposed (chunks : List (List Nat))
    (ps : List (List Nat × List Nat)) (t : List Nat)
    (hdec : chunks.flatten = assemble ps t)
    (hm : ∀ p ∈ ps, p.2 = M1 ∨ p.2 = M2)
    (h1 : ¬ M1 <:+: cleanOf ps t) (h2 : ¬ M2 <:+: cleanOf ps t) :
    (filteredStream chunks []).flatten = cleanOf ps t ∧
    stripMarkers chunks.flatten = cleanOf ps t := by
  have hm' : ∀ p ∈ ps, isMarker p.2 := hm
  constructor
  · have h := streamMain chunks [] [] [] ps t hm' (by simpa using h1)
      (by simpa using h2) (by simpa using hdec) (Or.inl ⟨rfl, rfl⟩)
    simpa using h
  · rw [hdec]
    exact batchStrip ps t hm' h1 h2

/-- C10 witness: the literal text `ab M1 cd` split mid-marker across two
chunks streams to exactly `abcd`. -/
theorem filtered_stream_strips_decomposed_witness :
    ((([[97, 98] ++ M1.take 20, M1.drop 20 ++ [99, 100]] : List (List Nat)).flatten
        = assemble [([97, 98], M1)] [99, 100]) ∧
      (∀ p ∈ [([97, 98], M1)], p.2 = M1 ∨ p.2 = M2) ∧
      ¬ M1 <:+: cleanOf [([97, 98], M1)] [99, 100] ∧
      ¬ M2 <:+: cleanOf [([97, 98], M1)] [99, 100]) ∧
    ((filteredStream [[97, 98] ++ M1.take 20, M1.drop 20 ++ [99, 100]] []).flatten
        = cleanOf [([97, 98], M1)] [99, 100] ∧
      stripMarkers
          ([[97, 98] ++ M1.take 20, M1.drop 20 ++ [99, 100]] : List (List Nat)).flatten
        = cleanOf [([97, 98], M1)] [99, 100]) :=
  ⟨⟨by decide, by decide, by decide, by decide⟩,
   filtered_stream_strips_decomposed _ _ _ (by decide) (by decide) (by decide)
     (by decide)⟩

end StreamFilter
